import Mathlib

/-!
Shallow embedding of the contributor-attribution script `analyze-repo.py`
(the only non-trivial component of this repository), together with theorems
settling the behavioural claims about it.

Conventions of the embedding:
* Python strings are Lean `String`s; character-level operations go through
  `List Char` so that every definition evaluates by kernel reduction.
* Python `dict`s are association lists with in-place update semantics
  (`dictGet` / `dictSet`), preserving insertion order exactly as CPython
  does.
* Python `set`s are `Finset String`.
* Subprocess calls are inputs: each call's outcome is an
  `Except Unit String` (the payload is the captured stdout); `.error`
  models a `CalledProcessError`.
* Python `int` is `Int`; the internal blame line counter, which only ever
  counts up from 0, is `Nat`.
* The calendar formatting of author timestamps (`datetime.fromtimestamp`
  followed by `strftime`) is injective on whole seconds and orthogonal to
  every claim; dates are carried as the parsed epoch seconds
  (`Option Int`) instead of formatted strings.
-/

namespace AnalyzeRepo

/-- Removes trailing characters satisfying `p` (the right half of Python's
`str.strip`). -/
def dropTrailing (p : Char → Bool) : List Char → List Char
  | [] => []
  | c :: rest =>
    match dropTrailing p rest with
    | [] => if p c then [] else [c]
    | r => c :: r

/-- Python `s.strip(chars)`: drop characters satisfying `p` from both ends. -/
def pyStripP (p : Char → Bool) (s : String) : String :=
  String.mk (dropTrailing p (s.toList.dropWhile p))

/-- Python `file_path.strip('/')` as used in `should_exclude_file`. -/
def pyStripSlash (s : String) : String :=
  pyStripP (fun c => c == '/') s

/-- Python `line.strip()` (whitespace at both ends). -/
def pyStripWs (s : String) : String :=
  pyStripP Char.isWhitespace s

/-- Python `s.replace(backslash, slash)`: single-character replacement is a
character map. -/
def pyReplaceBackslash (s : String) : String :=
  String.mk (s.toList.map (fun c => if c == '\\' then '/' else c))

/-- Python `s.startswith(pre)`. -/
def strStartsWith (s pre : String) : Bool :=
  pre.toList.isPrefixOf s.toList

/-- Python `s.endswith(suf)`. -/
def strEndsWith (s suf : String) : Bool :=
  suf.toList.isSuffixOf s.toList

/-- Python `s[n:]` (code-point slicing). -/
def strDrop (s : String) (n : Nat) : String :=
  String.mk (s.toList.drop n)

/-- Python `s.split(sep)` for a one-character separator, on character
lists.  The result is always non-empty. -/
def pySplitChar (sep : Char) : List Char → List (List Char)
  | [] => [[]]
  | c :: rest =>
    match pySplitChar sep rest with
    | [] => [[c]]
    | g :: gs => if c == sep then [] :: g :: gs else (c :: g) :: gs

/-- Python `s.split(sep)` for a one-character separator. -/
def pySplit (s : String) (sep : Char) : List String :=
  (pySplitChar sep s.toList).map String.mk

/-- Python's substring containment test (`needle in hay`) on character
lists. -/
def listContainsSub (n : List Char) : List Char → Bool
  | [] => n.isPrefixOf []
  | c :: t => n.isPrefixOf (c :: t) || listContainsSub n t

/-- Python's substring containment test on strings. -/
def strInStr (needle hay : String) : Bool :=
  listContainsSub needle.toList hay.toList

/-!
`fnmatch.fnmatch` — the POSIX glob matching of the Python standard library,
which `should_exclude_file` calls for its `exclude_patterns`.  The matcher
below models `fnmatch.translate`'s regex semantics directly: `*` matches any
run of characters, `?` any single character, `[...]` a character class with
ranges and `!` negation; a `[` with no closing `]` is a literal.
-/

/-- The number of leading class-body characters that `fnmatch.translate`'s
scan for the closing `]` skips over: a leading `!`, and a `]` standing
immediately after it (or first), belong to the class body. -/
def globClassSkip (cs : List Char) : Nat :=
  match cs with
  | '!' :: ']' :: _ => 2
  | '!' :: _ => 1
  | ']' :: _ => 1
  | _ => 0

/-- Splits the pattern characters following a `[` into the class body and the
remaining pattern; `none` when there is no closing `]` (in which case
`fnmatch` treats the `[` as a literal). -/
def globClassSplit (cs : List Char) : Option (List Char × List Char) :=
  match (cs.drop (globClassSkip cs)).findIdx? (fun c => c == ']') with
  | none => none
  | some k =>
    some (cs.take (globClassSkip cs + k), cs.drop (globClassSkip cs + k + 1))

/-- Parses a character-class body into inclusive ranges: `a-b` is a range,
every other character (including a leading or trailing `-`) stands for
itself. -/
def globClassItems : List Char → List (Char × Char)
  | [] => []
  | [c] => [(c, c)]
  | [c, '-'] => [(c, c), ('-', '-')]
  | c :: '-' :: d :: rest => (c, d) :: globClassItems rest
  | c :: rest => (c, c) :: globClassItems rest

/-- Membership of a character in a class body, honouring `!` negation. -/
def globClassMatch (stuff : List Char) (c : Char) : Bool :=
  match stuff with
  | '!' :: rest => !((globClassItems rest).any (fun r => r.1 ≤ c && c ≤ r.2))
  | _ => (globClassItems stuff).any (fun r => r.1 ≤ c && c ≤ r.2)

/-- Fuel-indexed anchored glob matcher.  Every recursive call strictly
shortens the pattern (for `[` classes the remainder after the closing `]` is
shorter than the class plus its bracket), so the fuel `globMatch` supplies —
one more than the pattern length — is never exhausted; the fuel only serves
to make the recursion structural. -/
def globMatchF : Nat → List Char → List Char → Bool
  | 0, _, _ => false
  | _ + 1, [], s => s.isEmpty
  | fuel + 1, '*' :: ps, s => s.tails.any (fun t => globMatchF fuel ps t)
  | fuel + 1, '?' :: ps, s =>
    (match s with
     | [] => false
     | _ :: s' => globMatchF fuel ps s')
  | fuel + 1, '[' :: ps, s =>
    (match globClassSplit ps with
     | some (stuff, rest) =>
       match s with
       | [] => false
       | c :: s' => globClassMatch stuff c && globMatchF fuel rest s'
     | none =>
       match s with
       | [] => false
       | c :: s' => (c == '[') && globMatchF fuel ps s')
  | fuel + 1, p :: ps, s =>
    (match s with
     | [] => false
     | c :: s' => (p == c) && globMatchF fuel ps s')

/-- Full-string glob match of a name against a pattern (the anchored match
produced by `fnmatch.translate`). -/
def globMatch (p s : List Char) : Bool :=
  globMatchF (p.length + 1) p s

/-- Python `fnmatch.fnmatch(name, pattern)` on a case-sensitive (POSIX)
platform. -/
def fnmatch (name pat : String) : Bool :=
  globMatch pat.toList name.toList

/-!
`GitContributorAnalyzer.should_exclude_file` (analyze-repo.py lines 70-101).
The Python loop rewrites `normalized_path` (backslash conversion) as it
iterates over `exclude_paths`, so the loop is embedded with the rewritten
path threaded through, and the glob patterns are then matched against
whatever value the loop left behind.
-/

/-- The path test of one loop iteration: exact match, directory-prefix match,
or slash-delimited containment of the excluded path in the file path. -/
def pathHit (exclude_path normalized_path : String) : Bool :=
  normalized_path == exclude_path ||
  strStartsWith normalized_path (exclude_path ++ "/") ||
  strInStr ("/" ++ exclude_path ++ "/") ("/" ++ normalized_path ++ "/")

/-- The `for exclude_path in self.exclude_paths` loop: returns whether a path
exclusion fired, together with the final value of the mutated
`normalized_path` variable. -/
def excludePathLoop : List String → String → Bool × String
  | [], normalized_path => (false, normalized_path)
  | ep :: rest, normalized_path =>
    let ep := pyReplaceBackslash ep
    let normalized_path := pyReplaceBackslash normalized_path
    if pathHit ep normalized_path then (true, normalized_path)
    else excludePathLoop rest normalized_path

/-- `GitContributorAnalyzer.should_exclude_file`. -/
def should_exclude_file (exclude_paths exclude_patterns : List String)
    (file_path : String) : Bool :=
  let normalized_path := pyStripSlash file_path
  match excludePathLoop exclude_paths normalized_path with
  | (true, _) => true
  | (false, np) => exclude_patterns.any (fun pat => fnmatch np pat)

/-- The exclusion predicate exactly as claim C1 words it: an exact path
match, a directory-prefix match, an arbitrary-substring match, or a glob
match.  This definition follows the claim's words, not the source, and is
compared against `should_exclude_file`. -/
def should_exclude_claimed (exclude_paths exclude_patterns : List String)
    (file_path : String) : Bool :=
  exclude_paths.any (fun ep =>
    file_path == ep || strStartsWith file_path (ep ++ "/") ||
    strInStr ep file_path) ||
  exclude_patterns.any (fun pat => fnmatch file_path pat)

/-- The exclusion predicate the code actually implements, stated without the
loop: both sides are backslash-converted, the path is stripped of
surrounding slashes, and the substring test is slash-delimited (the excluded
path must appear as a complete run of path components).  Glob patterns are
matched against the stripped path, backslash-converted exactly when at least
one exclude path is configured. -/
def should_exclude_amended (exclude_paths exclude_patterns : List String)
    (file_path : String) : Bool :=
  let np0 := pyStripSlash file_path
  let np := pyReplaceBackslash np0
  exclude_paths.any (fun ep => pathHit (pyReplaceBackslash ep) np) ||
  exclude_patterns.any (fun pat =>
    fnmatch (if exclude_paths.isEmpty then np0 else np) pat)

/-!
Python `int(...)`: optional surrounding whitespace, an optional sign, then a
non-empty digit sequence in which single underscores may separate digits.
A failed parse is a `ValueError`, modelled as `none`.
-/

/-- Value of the digit sequence after its first digit (already in `acc`):
digits, with single `_` separators allowed between digits only. -/
def pyDigitsRest : List Char → Nat → Option Nat
  | [], acc => some acc
  | ['_'], _ => none
  | '_' :: c :: rest, acc =>
    if c.isDigit then pyDigitsRest rest (acc * 10 + (c.toNat - 48)) else none
  | c :: rest, acc =>
    if c.isDigit then pyDigitsRest rest (acc * 10 + (c.toNat - 48)) else none

/-- A non-empty underscore-separated digit sequence and its value. -/
def pyDigitsStart : List Char → Option Nat
  | c :: rest => if c.isDigit then pyDigitsRest rest (c.toNat - 48) else none
  | [] => none

/-- Python `int(s)` for string arguments. -/
def pyInt (s : String) : Option Int :=
  match (pyStripWs s).toList with
  | '-' :: rest => (pyDigitsStart rest).map (fun n => -(n : Int))
  | '+' :: rest => (pyDigitsStart rest).map (fun n => (n : Int))
  | l => (pyDigitsStart l).map (fun n => (n : Int))

/-!
Python `dict` as an association list: lookup, and update-in-place (an
existing key keeps its position, a new key is appended), exactly CPython's
insertion-order semantics.  `defaultdict` reads become `(dictGet ..).getD
default`.
-/

/-- Python `d.get(k)`. -/
def dictGet {κ α : Type} [DecidableEq κ] (d : List (κ × α)) (k : κ) :
    Option α :=
  match d with
  | [] => none
  | (k', v) :: rest => if k' = k then some v else dictGet rest k

/-- Python `d[k] = v`. -/
def dictSet {κ α : Type} [DecidableEq κ] (d : List (κ × α)) (k : κ)
    (v : α) : List (κ × α) :=
  match d with
  | [] => [(k, v)]
  | (k', v') :: rest =>
    if k' = k then (k, v) :: rest else (k', v') :: dictSet rest k v

/-!
`GitContributorAnalyzer.process_file` (analyze-repo.py lines 112-191).
The per-author accumulator `result` is a `defaultdict` whose keys are the
author strings from the blame/log output — or Python `None` before any
author header line has been seen in the log walk — so keys are
`Option String`.
-/

/-- The per-author accumulator value of `process_file`: the Python 4-tuple
`(lines, count, date, email)`, where each recorded line is
`(line number, content, author date)`. -/
structure Entry where
  lines : List (Nat × String × Option Int)
  count : Int
  date : Option Int
  email : Option String
  deriving DecidableEq, Repr

/-- The `defaultdict` default `([], 0, None, None)`. -/
def defaultEntry : Entry := ⟨[], 0, none, none⟩

/-- The per-file result map of `process_file`. -/
abbrev Result := List (Option String × Entry)

/-- The loop state of the blame-output walk. -/
structure BlameSt where
  current_author : Option String
  current_line_num : Nat
  current_content : Option String
  current_date : Option Int
  current_email : Option String
  deriving DecidableEq, Repr

/-- The initial blame-walk state. -/
def initialBlameSt : BlameSt := ⟨none, 0, none, none, none⟩

/-- One iteration of the blame-output loop.  A malformed `author-time` value
raises `ValueError` (`int(line[12:])`), which no local handler catches — it
propagates to the outer `except` of `process_file` — hence the `Except`. -/
def blameStep (st : BlameSt) (r : Result) (line : String) :
    Except Unit (BlameSt × Result) :=
  if strStartsWith line "author " then
    .ok ({ st with current_author := some (strDrop line 7) }, r)
  else if strStartsWith line "author-mail " then
    let mail := pyStripP (fun c => c == '<' || c == '>') (strDrop line 12)
    .ok ({ st with current_email := some mail }, r)
  else if strStartsWith line "author-time " then
    match pyInt (strDrop line 12) with
    | none => .error ()
    | some t => .ok ({ st with current_date := some t }, r)
  else if strStartsWith line "\t" then
    let content := strDrop line 1
    let st := { st with current_content := some content }
    match st.current_author with
    | some a =>
      if (a != "") && (content != "") then
        let e := (dictGet r (some a)).getD defaultEntry
        let e := { e with
          lines := e.lines ++ [(st.current_line_num, content, st.current_date)],
          date := st.current_date,
          email := st.current_email }
        .ok ({ st with current_line_num := st.current_line_num + 1 },
          dictSet r (some a) e)
      else .ok (st, r)
    | none => .ok (st, r)
  else .ok (st, r)

/-- The blame-output loop. -/
def blameFold (st : BlameSt) (r : Result) :
    List String → Except Unit (BlameSt × Result)
  | [] => .ok (st, r)
  | line :: rest =>
    match blameStep st r line with
    | .error e => .error e
    | .ok (st', r') => blameFold st' r' rest

/-- The loop state of the log-output walk. -/
structure LogSt where
  current_author : Option String
  current_email : Option String
  deriving DecidableEq, Repr

/-- Python `a or b` on two optional strings (`None` and `""` are falsy). -/
def pyOrStr (a b : Option String) : Option String :=
  match a with
  | some s => if s == "" then b else some s
  | none => b

/-- One iteration of the numstat log loop: blank lines are skipped, a line
whose first character is not a digit is parsed as an `author\x00email`
header, and a digit-initial line is split into the three numstat columns —
a failed split or a failed `int(additions)` is a `ValueError` that the
local handler turns into `continue`.  Two points of care: (1) the
`defaultdict` read `result[current_author]` executes before
`int(additions)`, so even when the `int` raises, a fresh default entry
`([], 0, None, None)` has already been inserted for a previously unseen
author and survives the handler — `dictSet r k ((dictGet r k).getD
defaultEntry)` reproduces exactly that (a present key keeps its value and
position, an absent key gains the default); a failed column split raises
before the read and mutates nothing.  (2) The digit test is `Char.isDigit`:
it coincides with Python's `str.isdigit` on the ASCII alphabet git emits in
numstat columns, though not on exotic Unicode digit characters. -/
def logStep (r : Result) (st : LogSt) (line : String) : Result × LogSt :=
  if pyStripWs line == "" then (r, st)
  else
    match line.toList with
    | [] => (r, st)
    | c :: _ =>
      if !c.isDigit then
        let author_info := pySplit line '\x00'
        (r, { current_author := some (author_info.headD ""),
              current_email := author_info[1]? })
      else
        match pySplit line '\t' with
        | [additions, _deletions, _path] =>
          if additions != "-" then
            let e := (dictGet r st.current_author).getD defaultEntry
            match pyInt additions with
            | some n =>
              (dictSet r st.current_author
                { e with count := e.count + n,
                         email := pyOrStr st.current_email e.email }, st)
            | none => (dictSet r st.current_author e, st)
          else (r, st)
        | _ => (r, st)

/-- The numstat log loop. -/
def logFold (r : Result) (st : LogSt) : List String → Result × LogSt
  | [] => (r, st)
  | line :: rest =>
    let (r', st') := logStep r st line
    logFold r' st' rest

/-- The stdout of the three git subprocesses one `process_file` call runs
(`rev-list`, `blame --line-porcelain`, `log --numstat`); `.error` is a
non-zero exit. -/
structure PerFileOutputs where
  revList : Except Unit String
  blame : Except Unit String
  log : Except Unit String

/-- `GitContributorAnalyzer.process_file`.  The first two subprocess
failures are caught locally; a blame-parse `ValueError` and a `log`
subprocess failure both land in the outer `except Exception` handler.  All
four return `(file_path, \x7b\x7d)`. -/
def process_file (outs : PerFileOutputs) (file_path : String) :
    String × Result :=
  match outs.revList with
  | .error _ => (file_path, [])
  | .ok _ =>
    match outs.blame with
    | .error _ => (file_path, [])
    | .ok blame_output =>
      match blameFold initialBlameSt [] (pySplit blame_output '\n') with
      | .error _ => (file_path, [])
      | .ok (_, result) =>
        match outs.log with
        | .error _ => (file_path, [])
        | .ok log_output =>
          (file_path, (logFold result ⟨none, none⟩ (pySplit log_output '\n')).1)

/-!
`GitContributorAnalyzer.analyze_repository` (the effective definition at
lines 193-257; an earlier stub of the same name at lines 60-67 is shadowed
by it) and the report generators.
-/

/-- Models the addr-spec half of `email.utils.parseaddr` for the address
shapes git emits: the text inside angle brackets when present, otherwise
the input with surrounding whitespace stripped. -/
def parseaddrAddr (s : String) : String :=
  match pySplit s '<' with
  | _ :: inner :: _ => (pySplit inner '>').headD inner
  | _ => pyStripWs s

/-- `GitContributorAnalyzer.extract_email_domain`. -/
def extract_email_domain (email : String) : Option String :=
  let email_addr := parseaddrAddr email
  if email_addr.toList.contains '@' then (pySplit email_addr '@')[1]?
  else none

/-- The `LineInfo` dataclass. -/
structure LineInfo where
  content : String
  line_number : Nat
  last_modified : Option Int
  deriving DecidableEq, Repr

/-- The `FileContribution` dataclass. -/
structure FileContribution where
  current_lines : List LineInfo
  historical_lines : Int
  last_modified : Option Int
  committer_email : Option String
  deriving DecidableEq, Repr

/-- `FileContribution()`: the freshly-initialised record. -/
def emptyContribution : FileContribution := ⟨[], 0, none, none⟩

/-- The analyzer's aggregate maps: `contributor_stats` (author → file →
contribution, a dict of dicts), and the two `defaultdict(set)`s
`contributor_emails` and `contributor_companies` (empty set for missing
keys). -/
structure AnalyzerState where
  contributor_stats :
    List (Option String × List (String × FileContribution))
  contributor_emails : Option String → Finset String
  contributor_companies : Option String → Finset String

/-- The analyzer's maps as `__init__` leaves them. -/
def emptyState : AnalyzerState := ⟨[], fun _ => ∅, fun _ => ∅⟩

/-- Lookup through both dict levels of `contributor_stats`. -/
def statsGet (st : AnalyzerState) (author : Option String)
    (file_path : String) : Option FileContribution :=
  dictGet ((dictGet st.contributor_stats author).getD []) file_path

/-- `defaultdict(set)[key].add(x)` on a set-valued map. -/
def addToSetMap (m : Option String → Finset String) (key : Option String)
    (x : String) : Option String → Finset String :=
  fun a => if a = key then insert x (m a) else m a

/-- The body of the result-collection loop for one `(author, entry)` pair of
one file's results: create the author/file records if absent, assign the
historical count, date and email, extend the current-line list, and union
the email (and its domain) into the per-author sets. -/
def mergeAuthorEntry (file_path : String) (st : AnalyzerState)
    (ae : Option String × Entry) : AnalyzerState :=
  let author := ae.1
  let e := ae.2
  let authorFiles := (dictGet st.contributor_stats author).getD []
  let contribution := (dictGet authorFiles file_path).getD emptyContribution
  let contribution := { contribution with
    historical_lines := e.count,
    last_modified := e.date,
    committer_email := e.email,
    current_lines := contribution.current_lines ++
      e.lines.map (fun t => LineInfo.mk t.2.1 t.1 t.2.2) }
  let stats' := dictSet st.contributor_stats author
    (dictSet authorFiles file_path contribution)
  let st := { st with contributor_stats := stats' }
  match e.email with
  | some email =>
    if email != "" then
      let emails' := addToSetMap st.contributor_emails author email
      let st := { st with contributor_emails := emails' }
      match extract_email_domain email with
      | some domain =>
        let companies' := addToSetMap st.contributor_companies author domain
        { st with contributor_companies := companies' }
      | none => st
    else st
  | none => st

/-- Collecting one file's results into the aggregate maps. -/
def mergeFileResult (st : AnalyzerState) (fr : String × Result) :
    AnalyzerState :=
  fr.2.foldl (mergeAuthorEntry fr.1) st

/-- Collecting a list of per-file results, in the order the worker pool
yields them. -/
def mergeAll (st : AnalyzerState) (l : List (String × Result)) :
    AnalyzerState :=
  l.foldl mergeFileResult st

/-- The analyzer's configuration as stored by `__init__`. -/
structure Config where
  exclude_commits : List String
  exclude_paths : List String
  exclude_patterns : List String
  extensions : Option (List String)

/-- The `__init__` clean-up of the exclude-path argument: blank entries
dropped, surrounding slashes stripped. -/
def initExcludePaths (exclude_paths : List String) : List String :=
  (exclude_paths.filter (fun p => pyStripWs p != "")).map pyStripSlash

/-- `GitContributorAnalyzer.get_revision_range`. -/
def get_revision_range (exclude_commits : List String) : List String :=
  if exclude_commits.isEmpty then ["HEAD"]
  else "HEAD" :: exclude_commits.map (fun c => "^" ++ c)

/-- The extension filter of `analyze_repository`: an absent or empty
extension set is falsy in Python, so it lets everything through. -/
def extFilter (extensions : Option (List String)) (f : String) : Bool :=
  match extensions with
  | none => true
  | some exts => exts.isEmpty || exts.any (fun ext => strEndsWith f ext)

/-- What `analyze_repository` leaves behind: the aggregate state, the list
of files handed to the worker pool, and whether the listing-failure message
was printed. -/
structure AnalyzeOutcome where
  state : AnalyzerState
  files : List String
  listing_error : Bool

/-- `GitContributorAnalyzer.analyze_repository`: on a listing failure it
prints an error and returns with nothing processed; otherwise it filters
the file list and collects every file's `process_file` results.  `oracle`
supplies each file's subprocess outputs. -/
def analyze_repository (cfg : Config) (oracle : String → PerFileOutputs)
    (lsOut : Except Unit String) : AnalyzeOutcome :=
  match lsOut with
  | .error _ => ⟨emptyState, [], true⟩
  | .ok out =>
    let files := (pySplit out '\n').filter (fun f =>
      f != "" &&
      !should_exclude_file cfg.exclude_paths cfg.exclude_patterns f &&
      extFilter cfg.extensions f)
    let results := files.map (fun f => process_file (oracle f) f)
    ⟨mergeAll emptyState results, files, false⟩

/-- Per-author totals of `_generate_json_report`: two generator sums over
the author's file map. -/
def jsonAuthorCurrentTotal (fs : List (String × FileContribution)) : Nat :=
  (fs.map (fun p => p.2.current_lines.length)).sum

/-- Per-author historical total of `_generate_json_report`. -/
def jsonAuthorHistoricalTotal (fs : List (String × FileContribution)) :
    Int :=
  (fs.map (fun p => p.2.historical_lines)).sum

/-- Per-author totals of `_generate_csv_report`: a single loop accumulating
both counters. -/
def csvAuthorTotals (fs : List (String × FileContribution)) : Nat × Int :=
  fs.foldl (fun acc p =>
    (acc.1 + p.2.current_lines.length, acc.2 + p.2.historical_lines)) (0, 0)

/-- Per-author totals of `_generate_text_report` (the same two sums the
JSON report computes). -/
def txtAuthorTotals (fs : List (String × FileContribution)) : Nat × Int :=
  ((fs.map (fun p => p.2.current_lines.length)).sum,
   (fs.map (fun p => p.2.historical_lines)).sum)

/-- One contributor's entry of the JSON report document. -/
structure JsonContributor where
  emails : Finset String
  companies : Finset String
  total_current_lines : Nat
  total_historical_lines : Int
  files : List (String × Nat × Int × Option Int)

/-- The `contributors` object of `_generate_json_report`. -/
def jsonReportContributors (st : AnalyzerState) :
    List (Option String × JsonContributor) :=
  st.contributor_stats.map (fun p =>
    (p.1,
     { emails := st.contributor_emails p.1,
       companies := st.contributor_companies p.1,
       total_current_lines := jsonAuthorCurrentTotal p.2,
       total_historical_lines := jsonAuthorHistoricalTotal p.2,
       files := p.2.map (fun q =>
         (q.1, q.2.current_lines.length, q.2.historical_lines,
          q.2.last_modified)) }))

/-- What one `main` run produces. -/
structure RunOutcome where
  state : AnalyzerState
  processed_files : List String
  error_printed : Bool
  report : Option (List (Option String × JsonContributor))

/-- `main`: runs `analyze_repository` and then — unconditionally —
`generate_report`; the `report` field is `some` exactly when a report is
written, which the code does on every path. -/
def mainRun (cfg : Config) (oracle : String → PerFileOutputs)
    (lsOut : Except Unit String) : RunOutcome :=
  let a := analyze_repository cfg oracle lsOut
  ⟨a.state, a.files, a.listing_error,
   some (jsonReportContributors a.state)⟩

/-! ### Association-list (Python dict) lemmas -/

theorem dictGet_dictSet_self {κ α : Type} [DecidableEq κ]
    (d : List (κ × α)) (k : κ) (v : α) :
    dictGet (dictSet d k v) k = some v := by
  induction d with
  | nil => simp [dictGet, dictSet]
  | cons p rest ih =>
    by_cases h : p.1 = k
    · simp [dictGet, dictSet, h]
    · simp [dictGet, dictSet, h, ih]

theorem dictGet_dictSet_ne {κ α : Type} [DecidableEq κ]
    (d : List (κ × α)) (k k' : κ) (v : α) (h : k' ≠ k) :
    dictGet (dictSet d k v) k' = dictGet d k' := by
  have hne : ¬(k = k') := fun he => h he.symm
  induction d with
  | nil => simp [dictGet, dictSet, hne]
  | cons p rest ih =>
    rcases p with ⟨pk, pv⟩
    by_cases hp : pk = k
    · have hp' : ¬(pk = k') := by rw [hp]; exact hne
      simp [dictGet, dictSet, hp, hne, hp']
    · by_cases hpk : pk = k'
      · simp [dictGet, dictSet, hp, hpk, h]
      · simp [dictGet, dictSet, hp, hpk, ih]

/-! ### Claim C1: the exclusion predicate -/

theorem replaceBS_list_idem (l : List Char) :
    (l.map (fun c => if c == '\\' then '/' else c)).map
        (fun c => if c == '\\' then '/' else c) =
      l.map (fun c => if c == '\\' then '/' else c) := by
  rw [List.map_map]
  apply List.map_congr_left
  intro c _
  by_cases h : c == '\\' <;> simp [Function.comp, h]

theorem pyReplaceBackslash_idem (s : String) :
    pyReplaceBackslash (pyReplaceBackslash s) = pyReplaceBackslash s := by
  unfold pyReplaceBackslash
  have h : (String.mk (s.toList.map
        (fun c => if c == '\\' then '/' else c))).toList =
      s.toList.map (fun c => if c == '\\' then '/' else c) := rfl
  rw [h, replaceBS_list_idem]

theorem excludePathLoop_spec (eps : List String) (np : String) :
    excludePathLoop eps np =
      (eps.any (fun ep =>
         pathHit (pyReplaceBackslash ep) (pyReplaceBackslash np)),
       if eps.isEmpty then np else pyReplaceBackslash np) := by
  induction eps generalizing np with
  | nil => simp [excludePathLoop]
  | cons ep rest ih =>
    simp only [excludePathLoop, List.any_cons, List.isEmpty_cons]
    by_cases h : pathHit (pyReplaceBackslash ep) (pyReplaceBackslash np)
    · simp [h]
    · simp only [h, Bool.false_or, if_neg, if_false,
        Bool.false_eq_true, not_false_eq_true]
      rw [ih (pyReplaceBackslash np), pyReplaceBackslash_idem]
      simp [ite_self]

/-- Claim C1, counterexample: the claim counts any path containing an
excluded string as a plain substring as excluded; the code's substring test
is slash-delimited.  With exclude path `end`, the file `backend/foo.py`
contains `end` as a substring (so the claim's predicate fires) yet
`should_exclude_file` returns `false`. -/
theorem should_exclude_file_substring_counterexample :
    should_exclude_claimed ["end"] [] "backend/foo.py" = true ∧
    should_exclude_file ["end"] [] "backend/foo.py" = false :=
  ⟨by decide, by decide⟩

/-- Claim C1 (amended): `should_exclude_file` returns true exactly when the
slash-stripped, backslash-converted path equals an exclude path, lies under
it as a directory, or contains it delimited by slashes as a complete run of
path components (not: as an arbitrary substring), or when the normalized
path matches one of the glob patterns. -/
theorem should_exclude_file_eq_amended
    (exclude_paths exclude_patterns : List String) (file_path : String) :
    should_exclude_file exclude_paths exclude_patterns file_path =
      should_exclude_amended exclude_paths exclude_patterns file_path := by
  unfold should_exclude_file should_exclude_amended
  simp only [excludePathLoop_spec]
  by_cases h : exclude_paths.any (fun ep =>
      pathHit (pyReplaceBackslash ep)
        (pyReplaceBackslash (pyStripSlash file_path))) <;>
    simp [h]

/-! ### Character and splitting lemmas -/

theorem digit_ne_char {c d : Char} (h : c.isDigit = true)
    (hd : d.isDigit = false) : c ≠ d := by
  intro he
  rw [he, hd] at h
  cases h

theorem digit_not_ws {c : Char} (h : c.isDigit = true) :
    c.isWhitespace = false := by
  unfold Char.isWhitespace
  have h1 : c ≠ ' ' := digit_ne_char h (by decide)
  have h2 : c ≠ '\t' := digit_ne_char h (by decide)
  have h3 : c ≠ '\x0d' := digit_ne_char h (by decide)
  have h4 : c ≠ '\n' := digit_ne_char h (by decide)
  simp [h1, h2, h3, h4]

theorem pySplitChar_ne_nil (sep : Char) (l : List Char) :
    pySplitChar sep l ≠ [] := by
  cases l with
  | nil => simp [pySplitChar]
  | cons c rest =>
    simp only [pySplitChar]
    rcases h : pySplitChar sep rest with _ | ⟨g, gs⟩
    · simp
    · by_cases hc : c == sep <;> simp [hc]

theorem pySplitChar_cons_of_ne {sep c : Char} (cs : List Char)
    (hc : (c == sep) = false) :
    ∃ g gs, pySplitChar sep (c :: cs) = (c :: g) :: gs := by
  rcases h : pySplitChar sep cs with _ | ⟨g, gs⟩
  · exact absurd h (pySplitChar_ne_nil sep cs)
  · exact ⟨g, gs, by simp [pySplitChar, h, hc]⟩

theorem dropTrailing_cons_head {p : Char → Bool} {c : Char}
    (t : List Char) (hc : p c = false) :
    ∃ t', dropTrailing p (c :: t) = c :: t' := by
  simp only [dropTrailing]
  rcases h : dropTrailing p t with _ | ⟨x, xs⟩
  · exact ⟨[], by simp [hc]⟩
  · exact ⟨x :: xs, by simp⟩

theorem pyStripWs_toList_of_digit {s : String} {c : Char} {t : List Char}
    (hs : s.toList = c :: t) (hc : c.isDigit = true) :
    ∃ t', (pyStripWs s).toList = c :: t' := by
  have hws := digit_not_ws hc
  have h1 : s.toList.dropWhile Char.isWhitespace = c :: t := by
    rw [hs]
    simp [List.dropWhile_cons, hws]
  obtain ⟨t', ht'⟩ := dropTrailing_cons_head (p := Char.isWhitespace) t hws
  refine ⟨t', ?_⟩
  show dropTrailing Char.isWhitespace
    (s.toList.dropWhile Char.isWhitespace) = c :: t'
  rw [h1, ht']

theorem pyStripWs_ne_empty_of_digit {s : String} {c : Char} {t : List Char}
    (hs : s.toList = c :: t) (hc : c.isDigit = true) :
    ¬((pyStripWs s == "") = true) := by
  obtain ⟨t', ht'⟩ := pyStripWs_toList_of_digit hs hc
  intro he
  have heq : pyStripWs s = "" := eq_of_beq he
  rw [heq] at ht'
  simp at ht'

/-- The first tab-separated column of a digit-initial line starts with that
digit, so it is never the literal `-`. -/
theorem pySplit_digit_fields {line : String} {c : Char} {cs : List Char}
    (hs : line.toList = c :: cs) (hc : c.isDigit = true)
    {adds dels path : String}
    (hsplit : pySplit line '\t' = [adds, dels, path]) :
    (adds != "-") = true := by
  have htab : (c == '\t') = false :=
    beq_eq_false_iff_ne.mpr (digit_ne_char hc (by decide))
  obtain ⟨g, gs, hg⟩ := pySplitChar_cons_of_ne cs htab
  have hsplit' : pySplit line '\t' =
      String.mk (c :: g) :: gs.map String.mk := by
    unfold pySplit
    rw [hs, hg]
    simp
  rw [hsplit'] at hsplit
  simp only [List.cons.injEq] at hsplit
  have hadds : adds = String.mk (c :: g) := hsplit.1.symm
  have hne : adds ≠ "-" := by
    rw [hadds]
    intro he
    have hl := congrArg String.toList he
    simp only [String.toList] at hl
    have hcm : c = '-' := by
      have : c :: g = ['-'] := hl
      exact (List.cons.injEq _ _ _ _).mp this |>.1
    exact (digit_ne_char hc (by decide)) hcm
  simp [bne, beq_eq_false_iff_ne.mpr hne]

/-! ### Claim C2: the numstat log walk -/

/-- Claim C2: in the per-file numstat log walk, (1) a line whose first
character is not a digit leaves the result map — and hence every author's
historical count — unchanged (the code reads such lines, binary-file
markers included, as author headers, touching only the walk's
current-author/email state); (2) a digit-initial line that splits into
exactly the three numstat columns and whose additions column parses adds
exactly the additions value to the current author's entry, updating its
email — the deletions column does not occur in the update; (3) a
digit-initial line that does not split into exactly three columns (a
`ValueError` raised before anything is read) leaves the result map and the
walk state entirely unchanged; and (4) a digit-initial three-column line
whose `int(additions)` fails leaves every author's recorded lines and
historical count unchanged: the sole effect is the `defaultdict` read's
already-materialized zero default entry for the current author, so the
entry observed for any author (absent authors reading as the default) is
exactly what it was before the line. -/
theorem logStep_numstat_attribution :
    (∀ (r : Result) (st : LogSt) (line : String) (c : Char)
      (cs : List Char),
      line.toList = c :: cs → c.isDigit = false →
      (logStep r st line).1 = r) ∧
    (∀ (r : Result) (st : LogSt) (line : String) (c : Char)
      (cs : List Char) (adds dels path : String) (n : Int),
      line.toList = c :: cs → c.isDigit = true →
      pySplit line '\t' = [adds, dels, path] → pyInt adds = some n →
      logStep r st line =
        (dictSet r st.current_author
          { (dictGet r st.current_author).getD defaultEntry with
            count := ((dictGet r st.current_author).getD defaultEntry).count
              + n,
            email := pyOrStr st.current_email
              ((dictGet r st.current_author).getD defaultEntry).email },
         st)) ∧
    (∀ (r : Result) (st : LogSt) (line : String) (c : Char)
      (cs : List Char),
      line.toList = c :: cs → c.isDigit = true →
      (∀ adds dels path, pySplit line '\t' ≠ [adds, dels, path]) →
      logStep r st line = (r, st)) ∧
    (∀ (r : Result) (st : LogSt) (line : String) (c : Char)
      (cs : List Char) (adds dels path : String),
      line.toList = c :: cs → c.isDigit = true →
      pySplit line '\t' = [adds, dels, path] → pyInt adds = none →
      logStep r st line =
        (dictSet r st.current_author
          ((dictGet r st.current_author).getD defaultEntry), st) ∧
      ∀ a, (dictGet (logStep r st line).1 a).getD defaultEntry =
        (dictGet r a).getD defaultEntry) := by
  refine ⟨?_, ?_, ?_, ?_⟩
  · intro r st line c cs hs hc
    unfold logStep
    by_cases hstrip : (pyStripWs line == "") = true
    · simp [hstrip]
    · rw [if_neg hstrip, hs]
      simp [hc]
  · intro r st line c cs adds dels path n hs hc hsplit hparse
    have hstrip := pyStripWs_ne_empty_of_digit hs hc
    have hdash := pySplit_digit_fields hs hc hsplit
    unfold logStep
    rw [if_neg hstrip, hs]
    simp only [hc, Bool.not_true, Bool.false_eq_true, if_false, hsplit,
      hdash, if_true, hparse]
  · intro r st line c cs hs hc hne
    unfold logStep
    by_cases hstrip : (pyStripWs line == "") = true
    · simp [hstrip]
    · rw [if_neg hstrip, hs]
      rcases hsp : pySplit line '\t'
        with _ | ⟨a, _ | ⟨b, _ | ⟨p3, _ | ⟨d4, rest⟩⟩⟩⟩
      · simp [hc, hsp]
      · simp [hc, hsp]
      · simp [hc, hsp]
      · exact absurd hsp (hne a b p3)
      · simp [hc, hsp]
  · intro r st line c cs adds dels path hs hc hsplit hparse
    have hstrip := pyStripWs_ne_empty_of_digit hs hc
    have hdash := pySplit_digit_fields hs hc hsplit
    have h1 : logStep r st line =
        (dictSet r st.current_author
          ((dictGet r st.current_author).getD defaultEntry), st) := by
      unfold logStep
      rw [if_neg hstrip, hs]
      simp only [hc, Bool.not_true, Bool.false_eq_true, if_false, hsplit,
        hdash, if_true, hparse]
    refine ⟨h1, ?_⟩
    intro a
    rw [h1]
    show (dictGet (dictSet r st.current_author
      ((dictGet r st.current_author).getD defaultEntry)) a).getD
        defaultEntry = (dictGet r a).getD defaultEntry
    by_cases ha : a = st.current_author
    · subst ha
      rw [dictGet_dictSet_self, Option.getD_some]
    · rw [dictGet_dictSet_ne _ _ _ _ ha]

/-- Witness for claim C2 at concrete inputs: a binary-marker numstat line
leaves the result map empty, a well-formed `3⟨tab⟩1⟨tab⟩f` line adds 3 to
the current author, a four-column line is skipped outright, and the
malformed line `1x⟨tab⟩2⟨tab⟩f` only materializes the zero default entry
for the current author. -/
theorem logStep_numstat_attribution_witness :
    (logStep [] ⟨some "A", some "a@x"⟩ "-\t-\tbin.dat").1 = [] ∧
    logStep [] ⟨some "A", some "a@x"⟩ "3\t1\tf" =
      ([(some "A", ⟨[], 3, none, some "a@x"⟩)], ⟨some "A", some "a@x"⟩) ∧
    logStep [] ⟨some "A", some "a@x"⟩ "3\t1\tf\tx" =
      ([], ⟨some "A", some "a@x"⟩) ∧
    logStep [] ⟨some "A", some "a@x"⟩ "1x\t2\tf" =
      ([(some "A", defaultEntry)], ⟨some "A", some "a@x"⟩) ∧
    (dictGet (logStep [] ⟨some "A", some "a@x"⟩ "1x\t2\tf").1
      (some "A")).getD defaultEntry =
      (dictGet ([] : Result) (some "A")).getD defaultEntry := by
  refine ⟨?_, ?_, ?_, ?_, ?_⟩
  · exact logStep_numstat_attribution.1 [] ⟨some "A", some "a@x"⟩
      "-\t-\tbin.dat" '-' _ rfl rfl
  · have h := logStep_numstat_attribution.2.1 [] ⟨some "A", some "a@x"⟩
      "3\t1\tf" '3' _ "3" "1" "f" 3 rfl rfl (by decide) (by decide)
    rw [h]
    decide
  · refine logStep_numstat_attribution.2.2.1 [] ⟨some "A", some "a@x"⟩
      "3\t1\tf\tx" '3' _ rfl rfl ?_
    intro adds dels path h
    rw [show pySplit "3\t1\tf\tx" '\t' = ["3", "1", "f", "x"]
      from by decide] at h
    simp at h
  · have h := (logStep_numstat_attribution.2.2.2 [] ⟨some "A", some "a@x"⟩
      "1x\t2\tf" '1' _ "1x" "2" "f" rfl rfl (by decide) (by decide)).1
    rw [h]
    decide
  · exact (logStep_numstat_attribution.2.2.2 [] ⟨some "A", some "a@x"⟩
      "1x\t2\tf" '1' _ "1x" "2" "f" rfl rfl (by decide) (by decide)).2
      (some "A")

/-! ### Claim C3: the blame walk and line positions -/

set_option maxRecDepth 80000 in
/-- Claim C3 (code bug): `process_file` evaluated on the line-porcelain
blame output of a two-line file whose first line is blank.  Blame reports
the blank line as attributable (author Alice), yet no tuple for it is
recorded, and the second line `foo` — position 1 (0-based) in the file — is
recorded with line number 0: the guard `if current_author and
current_content` treats the empty content string as falsy and skips the
line without advancing the position counter, so every line after a blank
one is recorded under a shifted position. -/
theorem process_file_blank_line_dropped :
    (process_file
      ⟨.ok "",
       .ok ("h 1 1 1\nauthor Alice\nauthor-mail <alice@example.com>\nauthor-time 100\nfilename f\n\t\nh 1 2 1\nauthor Alice\nauthor-mail <alice@example.com>\nauthor-time 100\nfilename f\n\tfoo\n"),
       .ok ""⟩
      "f").2 =
      [(some "Alice",
        ⟨[(0, "foo", some 100)], 0, some 100, some "alice@example.com"⟩)] := by
  decide

/-! ### Claim C4: behaviour on a listing failure -/

/-- Claim C4, counterexample: with the trivial configuration and a failing
`ls-files` call, the run does not abort before report generation — the
error message is printed and no file is processed, but `main` still
generates a (contributor-less) report, contradicting the claim that no
report generation takes place. -/
theorem mainRun_listing_failure_counterexample :
    (mainRun ⟨[], [], [], none⟩ (fun _ => ⟨.ok "", .ok "", .ok ""⟩)
      (.error ())).error_printed = true ∧
    (mainRun ⟨[], [], [], none⟩ (fun _ => ⟨.ok "", .ok "", .ok ""⟩)
      (.error ())).report = some [] :=
  ⟨rfl, rfl⟩

/-- Claim C4 (amended): if the repository file-listing command fails, the
error message is printed and no per-file processing takes place, but the
run is not aborted: `analyze_repository` merely returns early and `main`
continues into report generation, which still runs and produces a report
with no contributors. -/
theorem mainRun_listing_failure (cfg : Config)
    (oracle : String → PerFileOutputs) :
    (mainRun cfg oracle (.error ())).error_printed = true ∧
    (mainRun cfg oracle (.error ())).processed_files = [] ∧
    (mainRun cfg oracle (.error ())).report = some [] :=
  ⟨rfl, rfl, rfl⟩

/-! ### Claim C5: per-file failures are contained -/

/-- Every failure mode of `process_file` ends in a handler returning the
empty per-file result: a failing `rev-list`, `blame` or `log` subprocess,
or the uncaught `ValueError` of a malformed `author-time` while parsing the
blame output. -/
theorem process_file_error_empty {outs : PerFileOutputs} (fp : String)
    (h : outs.revList = .error () ∨ outs.blame = .error () ∨
      outs.log = .error () ∨
      (∃ s, outs.blame = .ok s ∧
        blameFold initialBlameSt [] (pySplit s '\n') = .error ())) :
    process_file outs fp = (fp, []) := by
  rcases outs with ⟨rv, bl, lg⟩
  rcases h with h | h | h | ⟨s, hbl, hparse⟩
  · simp only at h
    subst h
    rfl
  · simp only at h
    subst h
    cases rv with
    | error e => rfl
    | ok rs => rfl
  · simp only at h
    subst h
    cases rv with
    | error e => rfl
    | ok rs =>
      cases bl with
      | error e => rfl
      | ok bs =>
        unfold process_file
        rcases hbf : blameFold initialBlameSt [] (pySplit bs '\n')
          with e | ⟨st', r'⟩ <;> simp [hbf]
  · simp only at hbl
    subst hbl
    cases rv with
    | error e => rfl
    | ok rs =>
      unfold process_file
      simp [hparse]

/-- Claim C5: a failing `rev-list`, `blame` or `log` subprocess, or an
exception while parsing the blame output (the uncaught `ValueError` of a
malformed `author-time`), makes `process_file` return the empty result map
for that file; and collecting an empty per-file result leaves the aggregate
state exactly unchanged — the failure neither aborts the run nor affects
any other file's contributions. -/
theorem process_file_failure_isolated :
    (∀ (outs : PerFileOutputs) (fp : String),
      (outs.revList = .error () ∨ outs.blame = .error () ∨
       outs.log = .error () ∨
       (∃ s, outs.blame = .ok s ∧
         blameFold initialBlameSt [] (pySplit s '\n') = .error ())) →
      process_file outs fp = (fp, [])) ∧
    (∀ (st : AnalyzerState) (fp : String),
      mergeFileResult st (fp, []) = st) :=
  ⟨fun _ fp h => process_file_error_empty fp h, fun _ _ => rfl⟩

/-- Witness for claim C5: a failing blame call yields the empty per-file
result, and merging an empty result is the identity on the aggregate
state. -/
theorem process_file_failure_isolated_witness :
    process_file ⟨.ok "", .error (), .ok ""⟩ "f" = ("f", []) ∧
    mergeFileResult emptyState ("f", []) = emptyState :=
  ⟨process_file_failure_isolated.1 ⟨.ok "", .error (), .ok ""⟩ "f"
      (Or.inr (Or.inl rfl)),
   process_file_failure_isolated.2 emptyState "f"⟩

/-! ### Claim C7: totals across output formats -/

theorem csvAuthorTotals_foldl (fs : List (String × FileContribution))
    (a : Nat) (b : Int) :
    fs.foldl (fun acc p =>
        (acc.1 + p.2.current_lines.length, acc.2 + p.2.historical_lines))
      (a, b) =
      (a + (fs.map (fun p => p.2.current_lines.length)).sum,
       b + (fs.map (fun p => p.2.historical_lines)).sum) := by
  induction fs generalizing a b with
  | nil => simp
  | cons p rest ih =>
    simp only [List.foldl_cons, List.map_cons, List.sum_cons, ih]
    simp [Nat.add_assoc, Int.add_assoc]

/-- Claim C7: for every author's file map, the current-line totals computed
by the JSON, text and CSV generators each equal the sum over the author's
files of the length of the per-file current-line list, and the CSV totals
pair coincides with the JSON totals pair — the CSV and JSON current and
historical totals of one run are numerically identical. -/
theorem report_totals_agree (fs : List (String × FileContribution)) :
    jsonAuthorCurrentTotal fs =
      (fs.map (fun p => p.2.current_lines.length)).sum ∧
    txtAuthorTotals fs =
      (jsonAuthorCurrentTotal fs, jsonAuthorHistoricalTotal fs) ∧
    csvAuthorTotals fs =
      (jsonAuthorCurrentTotal fs, jsonAuthorHistoricalTotal fs) := by
  refine ⟨rfl, rfl, ?_⟩
  unfold csvAuthorTotals
  rw [csvAuthorTotals_foldl]
  unfold jsonAuthorCurrentTotal jsonAuthorHistoricalTotal
  simp

/-! ### Claim C6: excluded files never reach the aggregate map -/

/-- The contribution value one merge step writes at `(author, file)`. -/
def mergedContribution (st : AnalyzerState) (fp : String)
    (ae : Option String × Entry) : FileContribution :=
  let contribution := (statsGet st ae.1 fp).getD emptyContribution
  { contribution with
    historical_lines := ae.2.count,
    last_modified := ae.2.date,
    committer_email := ae.2.email,
    current_lines := contribution.current_lines ++
      ae.2.lines.map (fun t => LineInfo.mk t.2.1 t.1 t.2.2) }

theorem mergeAuthorEntry_stats (fp : String) (st : AnalyzerState)
    (ae : Option String × Entry) :
    (mergeAuthorEntry fp st ae).contributor_stats =
      dictSet st.contributor_stats ae.1
        (dictSet ((dictGet st.contributor_stats ae.1).getD []) fp
          (mergedContribution st fp ae)) := by
  rcases ae with ⟨author, e⟩
  unfold mergeAuthorEntry
  cases hem : e.email with
  | none => simp [mergedContribution, statsGet, hem]
  | some em =>
    by_cases he : (em != "") = true
    · cases hx : extract_email_domain em <;>
        simp [mergedContribution, statsGet, hem, he, hx]
    · simp [mergedContribution, statsGet, hem, he]

theorem statsGet_mergeAuthorEntry_ne (fp : String) (st : AnalyzerState)
    (ae : Option String × Entry) (a : Option String) (f : String)
    (h : f ≠ fp) :
    statsGet (mergeAuthorEntry fp st ae) a f = statsGet st a f := by
  unfold statsGet
  rw [mergeAuthorEntry_stats]
  by_cases ha : ae.1 = a
  · rw [ha, dictGet_dictSet_self]
    simp only [Option.getD_some]
    rw [dictGet_dictSet_ne _ _ _ _ h]
  · rw [dictGet_dictSet_ne _ _ _ _ (fun he => ha he.symm)]

theorem statsGet_mergeFileResult_ne (fr : String × Result)
    (st : AnalyzerState) (a : Option String) (f : String) (h : fr.1 ≠ f) :
    statsGet (mergeFileResult st fr) a f = statsGet st a f := by
  rcases fr with ⟨fp, r⟩
  simp only at h
  induction r generalizing st with
  | nil => rfl
  | cons ae rest ih =>
    show statsGet (mergeFileResult (mergeAuthorEntry fp st ae) (fp, rest))
      a f = _
    rw [ih (mergeAuthorEntry fp st ae),
      statsGet_mergeAuthorEntry_ne fp st ae a f (fun he => h he.symm)]

theorem statsGet_mergeAll_not_mem (l : List (String × Result))
    (st : AnalyzerState) (a : Option String) (f : String)
    (h : ∀ fr ∈ l, fr.1 ≠ f) :
    statsGet (mergeAll st l) a f = statsGet st a f := by
  induction l generalizing st with
  | nil => rfl
  | cons fr rest ih =>
    show statsGet (mergeAll (mergeFileResult st fr) rest) a f = _
    rw [ih _ (fun x hx => h x (List.mem_cons_of_mem fr hx)),
      statsGet_mergeFileResult_ne fr st a f (h fr (List.mem_cons_self fr rest))]

theorem process_file_fst (outs : PerFileOutputs) (fp : String) :
    (process_file outs fp).1 = fp := by
  rcases outs with ⟨rv, bl, lg⟩
  cases rv with
  | error e => rfl
  | ok rs =>
    cases bl with
    | error e => rfl
    | ok bs =>
      unfold process_file
      rcases hbf : blameFold initialBlameSt [] (pySplit bs '\n')
        with e | ⟨st', r⟩
      · simp [hbf]
      · cases lg with
        | error e => simp [hbf]
        | ok ls => simp [hbf]

/-- Claim C6: after `analyze_repository` completes, a file excluded by the
path or pattern filter appears in no author's file map: the aggregate
contributor map holds no contribution record keyed by it. -/
theorem excluded_file_absent (cfg : Config)
    (oracle : String → PerFileOutputs) (lsOut : Except Unit String)
    (f : String) (author : Option String)
    (hex : should_exclude_file cfg.exclude_paths cfg.exclude_patterns f
      = true) :
    statsGet (analyze_repository cfg oracle lsOut).state author f = none := by
  cases lsOut with
  | error e => rfl
  | ok out =>
    unfold analyze_repository
    simp only
    rw [statsGet_mergeAll_not_mem]
    · rfl
    · intro fr hfr
      obtain ⟨x, hx, hfx⟩ := List.mem_map.mp hfr
      have hfst : fr.1 = x := by rw [← hfx, process_file_fst]
      have hxf := (List.mem_filter.mp hx).2
      simp only [Bool.and_eq_true, Bool.not_eq_true'] at hxf
      intro hef
      rw [hfst] at hef
      rw [hef, hex] at hxf
      exact absurd hxf.1.2 (by simp)

/-- Witness for claim C6: with exclude path `x`, the tracked file `x/a.py`
is excluded and, after a run listing it, no record keyed by it exists. -/
theorem excluded_file_absent_witness :
    should_exclude_file ["x"] [] "x/a.py" = true ∧
    statsGet (analyze_repository ⟨[], ["x"], [], none⟩
      (fun _ => ⟨.ok "", .ok "", .ok ""⟩) (.ok "x/a.py\ny.py")).state
      (some "A") "x/a.py" = none :=
  ⟨by decide,
   excluded_file_absent ⟨[], ["x"], [], none⟩
     (fun _ => ⟨.ok "", .ok "", .ok ""⟩) (.ok "x/a.py\ny.py")
     "x/a.py" (some "A") (by decide)⟩

/-! ### Claim C10: invariants of one per-file result -/

/-- All line numbers recorded in a per-file result, across all authors. -/
def resultLineNums (r : Result) : List Nat :=
  (r.map (fun p => p.2.lines.map (fun t => t.1))).flatten

theorem dictGet_mem {κ α : Type} [DecidableEq κ] {d : List (κ × α)}
    {k : κ} {v : α} (h : dictGet d k = some v) : (k, v) ∈ d := by
  induction d with
  | nil => simp [dictGet] at h
  | cons p rest ih =>
    rcases p with ⟨pk, pv⟩
    by_cases hp : pk = k
    · subst hp
      have hv : dictGet ((pk, pv) :: rest) pk = some pv := by
        simp [dictGet]
      rw [hv] at h
      injection h with h
      subst h
      exact List.mem_cons_self _ _
    · simp only [dictGet, if_neg hp] at h
      exact List.mem_cons_of_mem _ (ih h)

theorem mem_dictSet {κ α : Type} [DecidableEq κ] {d : List (κ × α)}
    {k : κ} {v : α} {p : κ × α} (h : p ∈ dictSet d k v) :
    p.2 = v ∨ p ∈ d := by
  induction d with
  | nil =>
    simp only [dictSet, List.mem_singleton] at h
    subst h
    exact Or.inl rfl
  | cons q rest ih =>
    rcases q with ⟨qk, qv⟩
    by_cases hq : qk = k
    · simp only [dictSet, if_pos hq, List.mem_cons] at h
      rcases h with h | h
      · subst h
        exact Or.inl rfl
      · exact Or.inr (List.mem_cons_of_mem _ h)
    · simp only [dictSet, if_neg hq, List.mem_cons] at h
      rcases h with h | h
      · subst h
        exact Or.inr (List.mem_cons_self _ _)
      · rcases ih h with h' | h'
        · exact Or.inl h'
        · exact Or.inr (List.mem_cons_of_mem _ h')

theorem resultLineNums_dictSet_perm (r : Result) (k : Option String)
    (e' : Entry) (extra : List (Nat × String × Option Int))
    (hl : e'.lines = ((dictGet r k).getD defaultEntry).lines ++ extra) :
    List.Perm (resultLineNums (dictSet r k e'))
      (resultLineNums r ++ extra.map (fun t => t.1)) := by
  induction r with
  | nil =>
    simp only [dictGet, Option.getD_none, defaultEntry,
      List.nil_append] at hl
    simp [dictSet, resultLineNums, hl]
  | cons p rest ih =>
    rcases p with ⟨k', v⟩
    by_cases hk : k' = k
    · have hg : dictGet ((k', v) :: rest) k = some v := by
        simp [dictGet, hk]
      rw [hg, Option.getD_some] at hl
      have hset : dictSet ((k', v) :: rest) k e' = (k, e') :: rest := by
        simp [dictSet, hk]
      rw [hset]
      simp only [resultLineNums, List.map_cons, List.flatten_cons]
      rw [hl]
      simp only [List.map_append, List.append_assoc]
      exact List.Perm.append_left _ List.perm_append_comm
    · simp only [dictGet, if_neg hk] at hl
      simp only [dictSet, if_neg hk, resultLineNums, List.map_cons,
        List.flatten_cons]
      refine (List.Perm.append_left _ (ih hl)).trans ?_
      rw [List.append_assoc]
      exact List.Perm.refl _

/-- The two per-file invariants threaded through the blame walk, plus the
bound that makes freshness of the next line number available. -/
def blameInv (n : Nat) (r : Result) : Prop :=
  (∀ m ∈ resultLineNums r, m < n) ∧ (resultLineNums r).Nodup ∧
    (∀ p ∈ r, 0 ≤ p.2.count)

theorem blameStep_inv {st : BlameSt} {r : Result} {line : String}
    (h : blameInv st.current_line_num r) {st' : BlameSt} {r' : Result}
    (hs : blameStep st r line = .ok (st', r')) :
    blameInv st'.current_line_num r' := by
  unfold blameStep at hs
  by_cases h1 : strStartsWith line "author " = true
  · rw [if_pos h1] at hs
    injection hs with hs
    injection hs with hs1 hs2
    subst hs1
    subst hs2
    exact h
  · rw [if_neg h1] at hs
    by_cases h2 : strStartsWith line "author-mail " = true
    · rw [if_pos h2] at hs
      injection hs with hs
      injection hs with hs1 hs2
      subst hs1
      subst hs2
      exact h
    · rw [if_neg h2] at hs
      by_cases h3 : strStartsWith line "author-time " = true
      · rw [if_pos h3] at hs
        rcases hp : pyInt (strDrop line 12) with _ | t
        · rw [hp] at hs
          cases hs
        · rw [hp] at hs
          injection hs with hs
          injection hs with hs1 hs2
          subst hs1
          subst hs2
          exact h
      · rw [if_neg h3] at hs
        by_cases h4 : strStartsWith line "\t" = true
        · rw [if_pos h4] at hs
          rcases hca : st.current_author with _ | a
          · simp only [hca] at hs
            injection hs with hs
            injection hs with hs1 hs2
            subst hs1
            subst hs2
            exact h
          · simp only [hca] at hs
            by_cases h5 : ((a != "") && (strDrop line 1 != "")) = true
            · rw [if_pos h5] at hs
              injection hs with hs
              injection hs with hs1 hs2
              subst hs1
              subst hs2
              rcases h with ⟨hbound, hnodup, hcount⟩
              have hperm := resultLineNums_dictSet_perm r (some a)
                ({ (dictGet r (some a)).getD defaultEntry with
                    lines := ((dictGet r (some a)).getD defaultEntry).lines
                      ++ [(st.current_line_num, strDrop line 1,
                           st.current_date)],
                    date := st.current_date,
                    email := st.current_email })
                [(st.current_line_num, strDrop line 1, st.current_date)]
                rfl
              refine ⟨?_, ?_, ?_⟩
              · intro m hm
                have := hperm.mem_iff.mp hm
                simp only [List.mem_append, List.map_cons, List.map_nil,
                  List.mem_singleton] at this
                rcases this with hmm | hmm
                · exact Nat.lt_succ_of_lt (hbound m hmm)
                · subst hmm
                  exact Nat.lt_succ_self _
              · refine (hperm.nodup_iff).mpr ?_
                refine List.Nodup.append hnodup (by simp) ?_
                intro x hx hy
                simp at hy
                subst hy
                exact absurd (hbound _ hx) (Nat.lt_irrefl _)
              · intro p hp
                rcases mem_dictSet hp with hpe | hpe
                · rw [hpe]
                  rcases hdg : dictGet r (some a) with _ | v
                  · simp [hdg, defaultEntry]
                  · simpa [hdg] using hcount _ (dictGet_mem hdg)
                · exact hcount _ hpe
            · rw [if_neg h5] at hs
              injection hs with hs
              injection hs with hs1 hs2
              subst hs1
              subst hs2
              exact h
        · rw [if_neg h4] at hs
          injection hs with hs
          injection hs with hs1 hs2
          subst hs1
          subst hs2
          exact h

theorem blameFold_inv (lines : List String) {st : BlameSt} {r : Result}
    (h : blameInv st.current_line_num r) {st' : BlameSt} {r' : Result}
    (hf : blameFold st r lines = .ok (st', r')) :
    blameInv st'.current_line_num r' := by
  induction lines generalizing st r with
  | nil =>
    unfold blameFold at hf
    injection hf with hf
    injection hf with hf1 hf2
    subst hf1
    subst hf2
    exact h
  | cons line rest ih =>
    unfold blameFold at hf
    rcases hs : blameStep st r line with e | ⟨st1, r1⟩
    · rw [hs] at hf
      cases hf
    · rw [hs] at hf
      exact ih (blameStep_inv h hs) hf

theorem pySplit_head_digit {line : String} {c : Char} {cs : List Char}
    (hs : line.toList = c :: cs) (hc : c.isDigit = true)
    {a : String} {rest : List String}
    (hsp : pySplit line '\t' = a :: rest) : ∃ g, a.toList = c :: g := by
  have htab : (c == '\t') = false :=
    beq_eq_false_iff_ne.mpr (digit_ne_char hc (by decide))
  obtain ⟨g, gs, hg⟩ := pySplitChar_cons_of_ne cs htab
  unfold pySplit at hsp
  rw [hs, hg] at hsp
  simp only [List.map_cons, List.cons.injEq] at hsp
  refine ⟨g, ?_⟩
  rw [← hsp.1]
  rfl

theorem pyInt_nonneg {s : String} {c : Char} {t : List Char} {n : Int}
    (hs : s.toList = c :: t) (hc : c.isDigit = true)
    (h : pyInt s = some n) : 0 ≤ n := by
  obtain ⟨t', ht'⟩ := pyStripWs_toList_of_digit hs hc
  unfold pyInt at h
  rw [ht'] at h
  have hminus : c ≠ '-' := digit_ne_char hc (by decide)
  have hplus : c ≠ '+' := digit_ne_char hc (by decide)
  split at h
  · rename_i rest heq
    exact absurd ((List.cons.injEq _ _ _ _).mp heq.symm).1.symm hminus
  · rename_i rest heq
    exact absurd ((List.cons.injEq _ _ _ _).mp heq.symm).1.symm hplus
  · rename_i l hne1 hne2
    rcases Option.map_eq_some'.mp h with ⟨m, hm1, hm2⟩
    have hn : m = n := hm2
    rcases hpd : pyDigitsStart (c :: t') with _ | k
    · rw [hpd] at hm1
      simp at hm1
    · rw [hpd] at hm1
      simp at hm1
      omega

theorem inv_dictSet_same_lines {r : Result} {k : Option String} {e' : Entry}
    (hl : e'.lines = ((dictGet r k).getD defaultEntry).lines)
    (hc : 0 ≤ e'.count)
    (h : (resultLineNums r).Nodup ∧ ∀ p ∈ r, 0 ≤ p.2.count) :
    (resultLineNums (dictSet r k e')).Nodup ∧
      ∀ p ∈ dictSet r k e', 0 ≤ p.2.count := by
  have hperm := resultLineNums_dictSet_perm r k e' [] (by simpa using hl)
  constructor
  · exact (hperm.nodup_iff).mpr (by simpa using h.1)
  · intro p hp
    rcases mem_dictSet hp with hpe | hpe
    · rw [hpe]
      exact hc
    · exact h.2 _ hpe

theorem logStep_inv {r : Result} (st : LogSt) (line : String)
    (h : (resultLineNums r).Nodup ∧ ∀ p ∈ r, 0 ≤ p.2.count) :
    (resultLineNums (logStep r st line).1).Nodup ∧
      ∀ p ∈ (logStep r st line).1, 0 ≤ p.2.count := by
  unfold logStep
  by_cases hstrip : (pyStripWs line == "") = true
  · rw [if_pos hstrip]
    exact h
  · rw [if_neg hstrip]
    rcases hl : line.toList with _ | ⟨c, cs⟩
    · exact h
    · simp only
      by_cases hd : c.isDigit = true
      · simp only [hd, Bool.not_true, Bool.false_eq_true, if_false]
        rcases hsp : pySplit line '\t'
          with _ | ⟨a, _ | ⟨b, _ | ⟨p3, _ | ⟨d4, rr⟩⟩⟩⟩
        · exact h
        · exact h
        · exact h
        · by_cases hdash : (a != "-") = true
          · have he : 0 ≤
                ((dictGet r st.current_author).getD defaultEntry).count := by
              rcases hdg : dictGet r st.current_author with _ | v
              · simp [hdg, defaultEntry]
              · simpa [hdg] using h.2 _ (dictGet_mem hdg)
            rcases hpi : pyInt a with _ | n
            · simp only [hdash, if_true, hpi]
              exact inv_dictSet_same_lines rfl he h
            · simp only [hdash, if_true, hpi]
              obtain ⟨g, hg⟩ := pySplit_head_digit hl hd hsp
              have hn : 0 ≤ n := pyInt_nonneg hg hd hpi
              exact inv_dictSet_same_lines rfl (by exact Int.add_nonneg he hn) h
          · simp only [hdash, if_false, Bool.false_eq_true]
            exact h
        · exact h
      · simp only [eq_false_of_ne_true hd, Bool.not_false, if_true]
        exact h

theorem logFold_inv (lines : List String) {r : Result} (st : LogSt)
    (h : (resultLineNums r).Nodup ∧ ∀ p ∈ r, 0 ≤ p.2.count) :
    (resultLineNums (logFold r st lines).1).Nodup ∧
      ∀ p ∈ (logFold r st lines).1, 0 ≤ p.2.count := by
  induction lines generalizing r st with
  | nil => exact h
  | cons line rest ih =>
    unfold logFold
    rcases hls : logStep r st line with ⟨r1, st1⟩
    have h1 := logStep_inv st line h
    rw [hls] at h1
    exact ih st1 h1

/-- The two invariants of one complete `process_file` run, shared by claims
about per-file results. -/
theorem process_file_snd_ok {rs bs ls : String} (fp : String)
    {st1 : BlameSt} {r1 : Result}
    (hbf : blameFold initialBlameSt [] (pySplit bs '\n') = .ok (st1, r1)) :
    (process_file ⟨.ok rs, .ok bs, .ok ls⟩ fp).2 =
      (logFold r1 ⟨none, none⟩ (pySplit ls '\n')).1 := by
  unfold process_file
  simp [hbf]

theorem process_file_inv (outs : PerFileOutputs) (fp : String) :
    (resultLineNums (process_file outs fp).2).Nodup ∧
      ∀ p ∈ (process_file outs fp).2, 0 ≤ p.2.count := by
  have hempty : (resultLineNums ([] : Result)).Nodup ∧
      ∀ p ∈ ([] : Result), 0 ≤ p.2.count := by
    constructor
    · simp [resultLineNums]
    · intro p hp
      simp at hp
  rcases outs with ⟨rv, bl, lg⟩
  cases rv with
  | error e =>
    cases e
    rw [process_file_error_empty fp (Or.inl rfl)]
    exact hempty
  | ok rs =>
    cases bl with
    | error e =>
      cases e
      rw [process_file_error_empty fp (Or.inr (Or.inl rfl))]
      exact hempty
    | ok bs =>
      rcases hbf : blameFold initialBlameSt [] (pySplit bs '\n')
        with e | ⟨st1, r1⟩
      · cases e
        rw [process_file_error_empty fp
          (Or.inr (Or.inr (Or.inr ⟨bs, rfl, hbf⟩)))]
        exact hempty
      · cases lg with
        | error e =>
          cases e
          rw [process_file_error_empty fp (Or.inr (Or.inr (Or.inl rfl)))]
          exact hempty
        | ok ls =>
          rw [process_file_snd_ok fp hbf]
          have hinv0 : blameInv initialBlameSt.current_line_num [] := by
            refine ⟨?_, ?_, ?_⟩
            · intro m hm
              simp [resultLineNums] at hm
            · simp [resultLineNums]
            · intro p hp
              simp at hp
          have h1 := blameFold_inv (pySplit bs '\n') hinv0 hbf
          exact logFold_inv (pySplit ls '\n') ⟨none, none⟩
            ⟨h1.2.1, h1.2.2⟩

/-- Claim C10: within any single file's per-file result, the line numbers
recorded across all authors' current-line lists are pairwise distinct, and
every author's recorded historical-addition count is nonnegative. -/
theorem per_file_result_invariants (outs : PerFileOutputs) (fp : String) :
    (resultLineNums (process_file outs fp).2).Nodup ∧
      ∀ p ∈ (process_file outs fp).2, 0 ≤ p.2.count :=
  process_file_inv outs fp

/-- Witness for claim C10 on a concrete run: two authors, interleaved blame
lines, one numstat line each. -/
theorem per_file_result_invariants_witness :
    (resultLineNums (process_file
      ⟨.ok "",
       .ok ("h 1 1 1\nauthor A\nauthor-time 5\n\tx\nh 1 2 1\nauthor B\nauthor-time 6\n\ty\nh 1 3 1\nauthor A\nauthor-time 5\n\tz\n"),
       .ok ("A\x00a@x\n\n2\t1\tf\nB\x00b@y\n\n1\t0\tf")⟩ "f").2).Nodup ∧
    0 ≤ (Entry.mk [(0, "x", some 5), (2, "z", some 5)] 2 (some 5)
      (some "a@x")).count :=
  ⟨(per_file_result_invariants
      ⟨.ok "",
       .ok ("h 1 1 1\nauthor A\nauthor-time 5\n\tx\nh 1 2 1\nauthor B\nauthor-time 6\n\ty\nh 1 3 1\nauthor A\nauthor-time 5\n\tz\n"),
       .ok ("A\x00a@x\n\n2\t1\tf\nB\x00b@y\n\n1\t0\tf")⟩ "f").1,
   (per_file_result_invariants
      ⟨.ok "",
       .ok ("h 1 1 1\nauthor A\nauthor-time 5\n\tx\nh 1 2 1\nauthor B\nauthor-time 6\n\ty\nh 1 3 1\nauthor A\nauthor-time 5\n\tz\n"),
       .ok ("A\x00a@x\n\n2\t1\tf\nB\x00b@y\n\n1\t0\tf")⟩ "f").2
     (some "A", Entry.mk [(0, "x", some 5), (2, "z", some 5)] 2 (some 5)
       (some "a@x"))
     (by decide)⟩

/-! ### Claim C8: history-only authors -/

theorem mem_dictSet_full {κ α : Type} [DecidableEq κ] {d : List (κ × α)}
    {k : κ} {v : α} {p : κ × α} (h : p ∈ dictSet d k v) :
    p = (k, v) ∨ p ∈ d := by
  induction d with
  | nil =>
    simp only [dictSet, List.mem_singleton] at h
    exact Or.inl h
  | cons q rest ih =>
    rcases q with ⟨qk, qv⟩
    by_cases hq : qk = k
    · simp only [dictSet, if_pos hq, List.mem_cons] at h
      rcases h with h | h
      · exact Or.inl h
      · exact Or.inr (List.mem_cons_of_mem _ h)
    · simp only [dictSet, if_neg hq, List.mem_cons] at h
      rcases h with h | h
      · exact Or.inr (h ▸ List.mem_cons_self _ _)
      · rcases ih h with h' | h'
        · exact Or.inl h'
        · exact Or.inr (List.mem_cons_of_mem _ h')

theorem keys_dictSet_nodup {κ α : Type} [DecidableEq κ]
    {d : List (κ × α)} (k : κ) (v : α)
    (h : (d.map Prod.fst).Nodup) : ((dictSet d k v).map Prod.fst).Nodup := by
  induction d with
  | nil => simp [dictSet]
  | cons q rest ih =>
    rcases q with ⟨qk, qv⟩
    simp only [List.map_cons, List.nodup_cons] at h
    by_cases hq : qk = k
    · simp only [dictSet, if_pos hq, List.map_cons, List.nodup_cons]
      exact ⟨hq ▸ h.1, h.2⟩
    · simp only [dictSet, if_neg hq, List.map_cons, List.nodup_cons]
      refine ⟨?_, ih h.2⟩
      intro hmem
      rcases List.mem_map.mp hmem with ⟨p, hp, hpk⟩
      rcases mem_dictSet_full hp with hpe | hpe
      · rw [hpe] at hpk
        exact hq hpk.symm
      · exact h.1 (hpk ▸ List.mem_map_of_mem Prod.fst hpe)

theorem blameStep_result_cases {st : BlameSt} {r : Result} {line : String}
    {st' : BlameSt} {r' : Result}
    (hs : blameStep st r line = .ok (st', r')) :
    r' = r ∨ ∃ k e, r' = dictSet r k e := by
  unfold blameStep at hs
  dsimp only at hs
  repeat' split at hs
  all_goals try (cases hs)
  all_goals first
    | exact Or.inl rfl
    | exact Or.inr ⟨_, _, rfl⟩

theorem logStep_result_cases (r : Result) (st : LogSt) (line : String) :
    (logStep r st line).1 = r ∨
      ∃ k e, (logStep r st line).1 = dictSet r k e := by
  unfold logStep
  repeat' split
  all_goals first
    | exact Or.inl rfl
    | exact Or.inr ⟨_, _, rfl⟩

theorem blameFold_keys_nodup (lines : List String) {st : BlameSt}
    {r : Result} (h : (r.map Prod.fst).Nodup) {st' : BlameSt} {r' : Result}
    (hf : blameFold st r lines = .ok (st', r')) :
    (r'.map Prod.fst).Nodup := by
  induction lines generalizing st r with
  | nil =>
    unfold blameFold at hf
    injection hf with hf
    injection hf with hf1 hf2
    subst hf2
    exact h
  | cons line rest ih =>
    unfold blameFold at hf
    rcases hs : blameStep st r line with e | ⟨st1, r1⟩
    · rw [hs] at hf
      cases hf
    · rw [hs] at hf
      have h1 : (r1.map Prod.fst).Nodup := by
        rcases blameStep_result_cases hs with hc | ⟨k, e, hc⟩
        · rw [hc]
          exact h
        · rw [hc]
          exact keys_dictSet_nodup k e h
      exact ih h1 hf

theorem logFold_keys_nodup (lines : List String) {r : Result} (st : LogSt)
    (h : (r.map Prod.fst).Nodup) :
    ((logFold r st lines).1.map Prod.fst).Nodup := by
  induction lines generalizing r st with
  | nil => exact h
  | cons line rest ih =>
    unfold logFold
    rcases hls : logStep r st line with ⟨r1, st1⟩
    have h1 : (r1.map Prod.fst).Nodup := by
      rcases logStep_result_cases r st line with hc | ⟨k, e, hc⟩
      · rw [hls] at hc
        have hc' : r1 = r := hc
        exact hc' ▸ h
      · rw [hls] at hc
        have hc' : r1 = dictSet r k e := hc
        exact hc' ▸ keys_dictSet_nodup k e h
    exact ih st1 h1

theorem process_file_keys_nodup (outs : PerFileOutputs) (fp : String) :
    ((process_file outs fp).2.map Prod.fst).Nodup := by
  rcases outs with ⟨rv, bl, lg⟩
  cases rv with
  | error e =>
    cases e
    rw [process_file_error_empty fp (Or.inl rfl)]
    simp
  | ok rs =>
    cases bl with
    | error e =>
      cases e
      rw [process_file_error_empty fp (Or.inr (Or.inl rfl))]
      simp
    | ok bs =>
      rcases hbf : blameFold initialBlameSt [] (pySplit bs '\n')
        with e | ⟨st1, r1⟩
      · cases e
        rw [process_file_error_empty fp
          (Or.inr (Or.inr (Or.inr ⟨bs, rfl, hbf⟩)))]
        simp
      · cases lg with
        | error e =>
          cases e
          rw [process_file_error_empty fp (Or.inr (Or.inr (Or.inl rfl)))]
          simp
        | ok ls =>
          rw [process_file_snd_ok fp hbf]
          exact logFold_keys_nodup (pySplit ls '\n') ⟨none, none⟩
            (blameFold_keys_nodup (pySplit bs '\n') (by simp) hbf)

/-- The contribution produced from an accumulated (possibly absent) record
and one author entry — what one pass of the collection loop writes. -/
def applyEntryOpt (acc : Option FileContribution) (e : Entry) :
    FileContribution :=
  let contribution := acc.getD emptyContribution
  { contribution with
    historical_lines := e.count,
    last_modified := e.date,
    committer_email := e.email,
    current_lines := contribution.current_lines ++
      e.lines.map (fun t => LineInfo.mk t.2.1 t.1 t.2.2) }

theorem statsGet_mergeAuthorEntry (fp : String) (st : AnalyzerState)
    (ae : Option String × Entry) (a : Option String) :
    statsGet (mergeAuthorEntry fp st ae) a fp =
      (if ae.1 = a then some (applyEntryOpt (statsGet st a fp) ae.2)
       else statsGet st a fp) := by
  unfold statsGet
  rw [mergeAuthorEntry_stats]
  by_cases ha : ae.1 = a
  · rw [if_pos ha, ha, dictGet_dictSet_self, Option.getD_some,
      dictGet_dictSet_self]
    subst ha
    rfl
  · rw [if_neg ha, dictGet_dictSet_ne _ _ _ _ (fun he => ha he.symm)]

theorem statsGet_mergeFileResult_self (fp : String) (r : Result)
    (st : AnalyzerState) (a : Option String) :
    statsGet (mergeFileResult st (fp, r)) a fp =
      r.foldl
        (fun acc p => if p.1 = a then some (applyEntryOpt acc p.2) else acc)
        (statsGet st a fp) := by
  induction r generalizing st with
  | nil => rfl
  | cons ae rest ih =>
    show statsGet (mergeFileResult (mergeAuthorEntry fp st ae) (fp, rest))
      a fp = _
    rw [ih, List.foldl_cons, statsGet_mergeAuthorEntry]

theorem foldl_applyEntry_no_author (r : Result) (a : Option String)
    (init : Option FileContribution) (h : ∀ q ∈ r, q.1 ≠ a) :
    r.foldl
      (fun acc p => if p.1 = a then some (applyEntryOpt acc p.2) else acc)
      init = init := by
  induction r generalizing init with
  | nil => rfl
  | cons q rest ih =>
    rw [List.foldl_cons, if_neg (h q (List.mem_cons_self q rest))]
    exact ih init (fun x hx => h x (List.mem_cons_of_mem q hx))

theorem foldl_applyEntry_of_nodup (r : Result) (a : Option String)
    (e : Entry) (init : Option FileContribution)
    (hget : dictGet r a = some e) (hnd : (r.map Prod.fst).Nodup) :
    r.foldl
      (fun acc p => if p.1 = a then some (applyEntryOpt acc p.2) else acc)
      init = some (applyEntryOpt init e) := by
  induction r generalizing init with
  | nil => simp [dictGet] at hget
  | cons q rest ih =>
    rcases q with ⟨qk, qv⟩
    simp only [List.map_cons, List.nodup_cons] at hnd
    by_cases hq : qk = a
    · have hv : qv = e := by
        have : dictGet ((qk, qv) :: rest) a = some qv := by
          simp [dictGet, hq]
        rw [this] at hget
        injection hget
      subst hv
      subst hq
      rw [List.foldl_cons, if_pos rfl]
      refine foldl_applyEntry_no_author rest qk _ ?_
      intro x hx he
      exact hnd.1 (he ▸ List.mem_map_of_mem Prod.fst hx)
    · rw [List.foldl_cons, if_neg hq]
      simp only [dictGet, if_neg hq] at hget
      exact ih init hget hnd.2

/-- Short name for one author's file map inside the aggregate state. -/
def authorFilesOf (st : AnalyzerState) (a : Option String) :
    List (String × FileContribution) :=
  (dictGet st.contributor_stats a).getD []

theorem mergeAuthorEntry_author_prop (author : Option String) (fp : String)
    (st : AnalyzerState) (ae : Option String × Entry)
    (hst : ∀ p ∈ authorFilesOf st author,
      p.2.current_lines = [] ∧ 0 ≤ p.2.historical_lines)
    (hae : ae.1 = author → ae.2.lines = [] ∧ 0 ≤ ae.2.count) :
    ∀ p ∈ authorFilesOf (mergeAuthorEntry fp st ae) author,
      p.2.current_lines = [] ∧ 0 ≤ p.2.historical_lines := by
  intro p hp
  unfold authorFilesOf at hp
  rw [mergeAuthorEntry_stats] at hp
  by_cases ha : ae.1 = author
  · rw [ha, dictGet_dictSet_self, Option.getD_some] at hp
    rcases mem_dictSet_full hp with hpe | hpe
    · subst hpe
      rcases hae ha with ⟨hl, hc⟩
      constructor
      · show (mergedContribution st fp ae).current_lines = []
        unfold mergedContribution
        rw [hl]
        simp only [List.map_nil, List.append_nil]
        unfold statsGet
        rcases hdg : dictGet ((dictGet st.contributor_stats ae.1).getD [])
          fp with _ | v
        · simp [emptyContribution]
        · have hv : (fp, v) ∈ authorFilesOf st author := by
            unfold authorFilesOf
            rw [← ha]
            exact dictGet_mem hdg
          simpa using (hst _ hv).1
      · show 0 ≤ (mergedContribution st fp ae).historical_lines
        exact hc
    · refine hst p ?_
      unfold authorFilesOf
      exact hpe
  · rw [dictGet_dictSet_ne _ _ _ _ (fun he => ha he.symm)] at hp
    exact hst p hp

theorem mergeFileResult_author_prop (author : Option String)
    (fr : String × Result) (st : AnalyzerState)
    (hst : ∀ p ∈ authorFilesOf st author,
      p.2.current_lines = [] ∧ 0 ≤ p.2.historical_lines)
    (hfr : ∀ q ∈ fr.2, q.1 = author → q.2.lines = [] ∧ 0 ≤ q.2.count) :
    ∀ p ∈ authorFilesOf (mergeFileResult st fr) author,
      p.2.current_lines = [] ∧ 0 ≤ p.2.historical_lines := by
  rcases fr with ⟨fp, r⟩
  induction r generalizing st with
  | nil => exact hst
  | cons ae rest ih =>
    show ∀ p ∈ authorFilesOf
      (mergeFileResult (mergeAuthorEntry fp st ae) (fp, rest)) author, _
    refine ih (mergeAuthorEntry fp st ae) ?_ ?_
    · exact mergeAuthorEntry_author_prop author fp st ae hst
        (fun h => hfr ae (List.mem_cons_self ae rest) h)
    · exact fun q hq h => hfr q (List.mem_cons_of_mem ae hq) h

theorem mergeAll_author_prop (author : Option String)
    (l : List (String × Result)) (st : AnalyzerState)
    (hst : ∀ p ∈ authorFilesOf st author,
      p.2.current_lines = [] ∧ 0 ≤ p.2.historical_lines)
    (hl : ∀ fr ∈ l, ∀ q ∈ fr.2, q.1 = author →
      q.2.lines = [] ∧ 0 ≤ q.2.count) :
    ∀ p ∈ authorFilesOf (mergeAll st l) author,
      p.2.current_lines = [] ∧ 0 ≤ p.2.historical_lines := by
  induction l generalizing st with
  | nil => exact hst
  | cons fr rest ih =>
    show ∀ p ∈ authorFilesOf (mergeAll (mergeFileResult st fr) rest)
      author, _
    refine ih (mergeFileResult st fr) ?_
      (fun x hx => hl x (List.mem_cons_of_mem fr hx))
    exact mergeFileResult_author_prop author fr st hst
      (hl fr (List.mem_cons_self fr rest))

theorem int_list_sum_nonneg {l : List Int} (h : ∀ x ∈ l, 0 ≤ x) :
    0 ≤ l.sum := by
  induction l with
  | nil => simp
  | cons y rest ih =>
    rw [List.sum_cons]
    have := h y (List.mem_cons_self y rest)
    have := ih (fun x hx => h x (List.mem_cons_of_mem y hx))
    omega

theorem int_list_sum_pos {l : List Int} (h : ∀ x ∈ l, 0 ≤ x) {x : Int}
    (hx : x ∈ l) (hpos : 0 < x) : 0 < l.sum := by
  induction l with
  | nil => simp at hx
  | cons y rest ih =>
    rw [List.sum_cons]
    rcases List.mem_cons.mp hx with he | hm
    · have := int_list_sum_nonneg
        (fun z hz => h z (List.mem_cons_of_mem y hz))
      omega
    · have h1 := h y (List.mem_cons_self y rest)
      have h2 := ih (fun z hz => h z (List.mem_cons_of_mem y hz)) hm
      omega

theorem mergeAll_history_only (author : Option String)
    (files : List String) (g : String → String × Result)
    (hg : ∀ f, (g f).1 = f) (hnodup : files.Nodup)
    (hkeys : ∀ f, (((g f).2).map Prod.fst).Nodup)
    (hnoblame : ∀ f ∈ files, ∀ q ∈ (g f).2, q.1 = author →
      q.2.lines = [])
    (hcount : ∀ f, ∀ q ∈ (g f).2, 0 ≤ q.2.count)
    (hhist : ∃ f ∈ files, ∃ e,
      dictGet (g f).2 author = some e ∧ 0 < e.count) :
    jsonAuthorCurrentTotal
      (authorFilesOf (mergeAll emptyState (files.map g)) author) = 0 ∧
    0 < jsonAuthorHistoricalTotal
      (authorFilesOf (mergeAll emptyState (files.map g)) author) := by
  have hst0 : ∀ p ∈ authorFilesOf emptyState author,
      p.2.current_lines = [] ∧ 0 ≤ p.2.historical_lines := by
    intro p hp
    simp [authorFilesOf, emptyState, dictGet] at hp
  have hprop := mergeAll_author_prop author (files.map g) emptyState hst0
    (by
      intro fr hfr q hq hqa
      obtain ⟨x, hx, hfx⟩ := List.mem_map.mp hfr
      subst hfx
      exact ⟨hnoblame x hx q hq hqa, hcount x q hq⟩)
  obtain ⟨f₀, hf₀, e₀, hge, hpos⟩ := hhist
  obtain ⟨s, t, hdecomp⟩ := List.append_of_mem hf₀
  subst hdecomp
  rw [List.nodup_append] at hnodup
  have hf0s : f₀ ∉ s := fun h => hnodup.2.2 h (List.mem_cons_self f₀ t)
  have hf0t : f₀ ∉ t := (List.nodup_cons.mp hnodup.2.1).1
  have hmerge : mergeAll emptyState ((s ++ f₀ :: t).map g) =
      mergeAll (mergeFileResult (mergeAll emptyState (s.map g)) (g f₀))
        (t.map g) := by
    rw [List.map_append, List.map_cons]
    unfold mergeAll
    rw [List.foldl_append, List.foldl_cons]
  have hgf : g f₀ = (f₀, (g f₀).2) := by
    rw [Prod.ext_iff]
    exact ⟨hg f₀, rfl⟩
  have h1 : statsGet (mergeAll
        (mergeFileResult (mergeAll emptyState (s.map g)) (g f₀))
        (t.map g)) author f₀ =
      statsGet (mergeFileResult (mergeAll emptyState (s.map g)) (g f₀))
        author f₀ := by
    refine statsGet_mergeAll_not_mem (t.map g) _ author f₀ ?_
    intro fr hfr
    obtain ⟨x, hx, hfx⟩ := List.mem_map.mp hfr
    rw [← hfx, hg]
    intro he
    exact hf0t (he ▸ hx)
  have h3 : statsGet (mergeAll emptyState (s.map g)) author f₀ = none := by
    have hs := statsGet_mergeAll_not_mem (s.map g) emptyState author f₀
      (by
        intro fr hfr
        obtain ⟨x, hx, hfx⟩ := List.mem_map.mp hfr
        rw [← hfx, hg]
        intro he
        exact hf0s (he ▸ hx))
    rw [hs]
    rfl
  have h2 : statsGet (mergeFileResult (mergeAll emptyState (s.map g))
      (g f₀)) author f₀ = some (applyEntryOpt none e₀) := by
    rw [hgf, statsGet_mergeFileResult_self, h3]
    exact foldl_applyEntry_of_nodup _ author e₀ none hge (hkeys f₀)
  have hmem : (f₀, applyEntryOpt none e₀) ∈
      authorFilesOf (mergeAll emptyState ((s ++ f₀ :: t).map g)) author := by
    apply dictGet_mem
    show statsGet (mergeAll emptyState ((s ++ f₀ :: t).map g)) author f₀
      = _
    rw [hmerge, h1, h2]
  constructor
  · unfold jsonAuthorCurrentTotal
    refine List.sum_eq_zero ?_
    intro x hx
    obtain ⟨p, hp, hpx⟩ := List.mem_map.mp hx
    rw [← hpx, (hprop p hp).1]
    rfl
  · unfold jsonAuthorHistoricalTotal
    refine int_list_sum_pos ?_
      (List.mem_map_of_mem (fun p => p.2.historical_lines) hmem) hpos
    intro x hx
    obtain ⟨p, hp, hpx⟩ := List.mem_map.mp hx
    rw [← hpx]
    exact (hprop p hp).2

/-- Claim C8: an author for whom the blame pass records no current lines in
any processed file, while the log walk attributes a positive number of
added lines to them in some processed file, ends the run with a
strictly positive historical line total and a current-line total of
zero. -/
theorem history_only_author (cfg : Config)
    (oracle : String → PerFileOutputs) (lsOut : Except Unit String)
    (author : Option String)
    (hnodup : (analyze_repository cfg oracle lsOut).files.Nodup)
    (hnoblame : ∀ f ∈ (analyze_repository cfg oracle lsOut).files,
      ∀ q ∈ (process_file (oracle f) f).2, q.1 = author →
        q.2.lines = [])
    (hhist : ∃ f ∈ (analyze_repository cfg oracle lsOut).files, ∃ e,
      dictGet (process_file (oracle f) f).2 author = some e ∧
        0 < e.count) :
    jsonAuthorCurrentTotal
      (authorFilesOf (analyze_repository cfg oracle lsOut).state author)
      = 0 ∧
    0 < jsonAuthorHistoricalTotal
      (authorFilesOf (analyze_repository cfg oracle lsOut).state author) := by
  cases lsOut with
  | error e =>
    rcases hhist with ⟨f, hf, _⟩
    simp [analyze_repository] at hf
  | ok out =>
    exact mergeAll_history_only author
      (analyze_repository cfg oracle (.ok out)).files
      (fun f => process_file (oracle f) f)
      (fun f => process_file_fst (oracle f) f)
      hnodup
      (fun f => process_file_keys_nodup (oracle f) f)
      hnoblame
      (fun f => (process_file_inv (oracle f) f).2)
      hhist

/-- Witness for claim C8: author `B` appears only in the numstat log of the
single processed file (3 lines added, none surviving blame); the run ends
with historical total 3 and current total 0 for `B`. -/
theorem history_only_author_witness :
    jsonAuthorCurrentTotal
      (authorFilesOf (analyze_repository ⟨[], [], [], none⟩
        (fun _ => ⟨.ok "", .ok "", .ok "B\x00b@x\n\n3\t1\tf"⟩)
        (.ok "f")).state (some "B")) = 0 ∧
    0 < jsonAuthorHistoricalTotal
      (authorFilesOf (analyze_repository ⟨[], [], [], none⟩
        (fun _ => ⟨.ok "", .ok "", .ok "B\x00b@x\n\n3\t1\tf"⟩)
        (.ok "f")).state (some "B")) :=
  history_only_author ⟨[], [], [], none⟩
    (fun _ => ⟨.ok "", .ok "", .ok "B\x00b@x\n\n3\t1\tf"⟩)
    (.ok "f") (some "B")
    (by decide)
    (by decide)
    ⟨"f", by decide, ⟨[], 3, none, some "b@x"⟩, by decide, by decide⟩

/-! ### Claim C9: order independence of the collection merge -/

/-- The email one merge pass adds for an entry (Python truthiness: `None`
and the empty string add nothing). -/
def entryEmailAdd (e : Entry) : Option String :=
  match e.email with
  | some em => if em != "" then some em else none
  | none => none

/-- The company domain one merge pass adds for an entry. -/
def entryDomainAdd (e : Entry) : Option String :=
  match entryEmailAdd e with
  | some em => extract_email_domain em
  | none => none

theorem emails_mergeAuthorEntry (fp : String) (st : AnalyzerState)
    (ae : Option String × Entry) (a : Option String) :
    (mergeAuthorEntry fp st ae).contributor_emails a =
      (match entryEmailAdd ae.2 with
       | some em =>
         if ae.1 = a then insert em (st.contributor_emails a)
         else st.contributor_emails a
       | none => st.contributor_emails a) := by
  unfold mergeAuthorEntry entryEmailAdd
  cases hem : ae.2.email with
  | none => simp [hem]
  | some em =>
    by_cases he : (em != "") = true
    · cases hx : extract_email_domain em with
      | none =>
        by_cases ha : ae.1 = a
        · simp [hem, he, hx, ha, addToSetMap]
        · have ha' : ¬(a = ae.1) := fun hh => ha hh.symm
          simp [hem, he, hx, ha, ha', addToSetMap]
      | some d =>
        by_cases ha : ae.1 = a
        · simp [hem, he, hx, ha, addToSetMap]
        · have ha' : ¬(a = ae.1) := fun hh => ha hh.symm
          simp [hem, he, hx, ha, ha', addToSetMap]
    · simp [hem, he]

theorem companies_mergeAuthorEntry (fp : String) (st : AnalyzerState)
    (ae : Option String × Entry) (a : Option String) :
    (mergeAuthorEntry fp st ae).contributor_companies a =
      (match entryDomainAdd ae.2 with
       | some d =>
         if ae.1 = a then insert d (st.contributor_companies a)
         else st.contributor_companies a
       | none => st.contributor_companies a) := by
  unfold mergeAuthorEntry entryDomainAdd entryEmailAdd
  cases hem : ae.2.email with
  | none => simp [hem]
  | some em =>
    by_cases he : (em != "") = true
    · cases hx : extract_email_domain em with
      | none =>
        by_cases ha : ae.1 = a
        · simp [hem, he, hx, ha, addToSetMap]
        · have ha' : ¬(a = ae.1) := fun hh => ha hh.symm
          simp [hem, he, hx, ha, ha', addToSetMap]
      | some d =>
        by_cases ha : ae.1 = a
        · simp [hem, he, hx, ha, addToSetMap]
        · have ha' : ¬(a = ae.1) := fun hh => ha hh.symm
          simp [hem, he, hx, ha, ha', addToSetMap]
    · simp [hem, he]

/-- The set of emails a whole per-file result adds for one author. -/
def emailsAdded (r : Result) (a : Option String) : Finset String :=
  r.foldr (fun p acc =>
    if p.1 = a then
      match entryEmailAdd p.2 with
      | some em => insert em acc
      | none => acc
    else acc) ∅

/-- The set of company domains a whole per-file result adds for one
author. -/
def domainsAdded (r : Result) (a : Option String) : Finset String :=
  r.foldr (fun p acc =>
    if p.1 = a then
      match entryDomainAdd p.2 with
      | some d => insert d acc
      | none => acc
    else acc) ∅

theorem emails_mergeFileResult (fp : String) (r : Result)
    (st : AnalyzerState) (a : Option String) :
    (mergeFileResult st (fp, r)).contributor_emails a =
      st.contributor_emails a ∪ emailsAdded r a := by
  induction r generalizing st with
  | nil => simp [mergeFileResult, emailsAdded]
  | cons ae rest ih =>
    show (mergeFileResult (mergeAuthorEntry fp st ae)
      (fp, rest)).contributor_emails a = _
    rw [ih, emails_mergeAuthorEntry]
    cases hadd : entryEmailAdd ae.2 with
    | none => simp [emailsAdded, hadd]
    | some em =>
      by_cases ha : ae.1 = a
      · simp [emailsAdded, hadd, ha, Finset.insert_union,
          Finset.union_insert]
      · simp [emailsAdded, hadd, ha]

theorem companies_mergeFileResult (fp : String) (r : Result)
    (st : AnalyzerState) (a : Option String) :
    (mergeFileResult st (fp, r)).contributor_companies a =
      st.contributor_companies a ∪ domainsAdded r a := by
  induction r generalizing st with
  | nil => simp [mergeFileResult, domainsAdded]
  | cons ae rest ih =>
    show (mergeFileResult (mergeAuthorEntry fp st ae)
      (fp, rest)).contributor_companies a = _
    rw [ih, companies_mergeAuthorEntry]
    cases hadd : entryDomainAdd ae.2 with
    | none => simp [domainsAdded, hadd]
    | some d =>
      by_cases ha : ae.1 = a
      · simp [domainsAdded, hadd, ha, Finset.insert_union,
          Finset.union_insert]
      · simp [domainsAdded, hadd, ha]

theorem statsGet_mergeFileResult_general (fp : String) (r : Result)
    (st : AnalyzerState) (a : Option String) (f : String) :
    statsGet (mergeFileResult st (fp, r)) a f =
      (if fp = f then
        r.foldl
          (fun acc p =>
            if p.1 = a then some (applyEntryOpt acc p.2) else acc)
          (statsGet st a f)
       else statsGet st a f) := by
  by_cases hf : fp = f
  · subst hf
    rw [if_pos rfl]
    exact statsGet_mergeFileResult_self fp r st a
  · rw [if_neg hf]
    exact statsGet_mergeFileResult_ne (fp, r) st a f hf

/-- Pointwise observational equality of two aggregate states: equal nested
stats lookups, equal email sets, equal company sets. -/
def ObsEq (s t : AnalyzerState) : Prop :=
  (∀ a f, statsGet s a f = statsGet t a f) ∧
  (∀ a, s.contributor_emails a = t.contributor_emails a) ∧
  (∀ a, s.contributor_companies a = t.contributor_companies a)

theorem obsEq_refl (s : AnalyzerState) : ObsEq s s :=
  ⟨fun _ _ => rfl, fun _ => rfl, fun _ => rfl⟩

theorem obsEq_trans {s t u : AnalyzerState} (h1 : ObsEq s t)
    (h2 : ObsEq t u) : ObsEq s u :=
  ⟨fun a f => (h1.1 a f).trans (h2.1 a f),
   fun a => (h1.2.1 a).trans (h2.2.1 a),
   fun a => (h1.2.2 a).trans (h2.2.2 a)⟩

theorem mergeFileResult_obsEq {s t : AnalyzerState} (h : ObsEq s t)
    (fr : String × Result) :
    ObsEq (mergeFileResult s fr) (mergeFileResult t fr) := by
  rcases fr with ⟨fp, r⟩
  refine ⟨?_, ?_, ?_⟩
  · intro a f
    rw [statsGet_mergeFileResult_general, statsGet_mergeFileResult_general,
      h.1 a f]
  · intro a
    rw [emails_mergeFileResult, emails_mergeFileResult, h.2.1 a]
  · intro a
    rw [companies_mergeFileResult, companies_mergeFileResult, h.2.2 a]

theorem mergeAll_obsEq {s t : AnalyzerState} (h : ObsEq s t)
    (l : List (String × Result)) :
    ObsEq (mergeAll s l) (mergeAll t l) := by
  induction l generalizing s t with
  | nil => exact h
  | cons fr rest ih =>
    exact ih (mergeFileResult_obsEq h fr)

theorem mergeFileResult_comm (st : AnalyzerState) (x y : String × Result)
    (hxy : x.1 ≠ y.1) :
    ObsEq (mergeFileResult (mergeFileResult st x) y)
      (mergeFileResult (mergeFileResult st y) x) := by
  rcases x with ⟨fx, rx⟩
  rcases y with ⟨fy, ry⟩
  simp only at hxy
  refine ⟨?_, ?_, ?_⟩
  · intro a f
    rw [statsGet_mergeFileResult_general, statsGet_mergeFileResult_general,
      statsGet_mergeFileResult_general, statsGet_mergeFileResult_general]
    by_cases hfx : fx = f <;> by_cases hfy : fy = f
    · exact absurd (hfx.trans hfy.symm) hxy
    · simp [hfx, hfy]
    · simp [hfx, hfy]
    · simp [hfx, hfy]
  · intro a
    rw [emails_mergeFileResult, emails_mergeFileResult,
      emails_mergeFileResult, emails_mergeFileResult,
      Finset.union_assoc, Finset.union_assoc,
      Finset.union_comm (emailsAdded rx a)]
  · intro a
    rw [companies_mergeFileResult, companies_mergeFileResult,
      companies_mergeFileResult, companies_mergeFileResult,
      Finset.union_assoc, Finset.union_assoc,
      Finset.union_comm (domainsAdded rx a)]

theorem mergeAll_perm_obsEq {l₁ l₂ : List (String × Result)}
    (hperm : l₁.Perm l₂) :
    (l₁.map Prod.fst).Nodup → ∀ st₁ st₂, ObsEq st₁ st₂ →
      ObsEq (mergeAll st₁ l₁) (mergeAll st₂ l₂) := by
  induction hperm with
  | nil =>
    intro _ st₁ st₂ h
    exact h
  | cons x h ih =>
    intro hnd st₁ st₂ hobs
    refine ih ?_ (mergeFileResult st₁ x) (mergeFileResult st₂ x)
      (mergeFileResult_obsEq hobs x)
    simp only [List.map_cons, List.nodup_cons] at hnd
    exact hnd.2
  | swap x y l =>
    intro hnd st₁ st₂ hobs
    have hxy : y.1 ≠ x.1 := by
      simp only [List.map_cons, List.nodup_cons, List.mem_cons] at hnd
      exact fun he => hnd.1 (Or.inl he)
    show ObsEq (mergeAll (mergeFileResult (mergeFileResult st₁ y) x) l)
      (mergeAll (mergeFileResult (mergeFileResult st₂ x) y) l)
    refine mergeAll_obsEq ?_ l
    refine obsEq_trans
      (mergeFileResult_obsEq (mergeFileResult_obsEq hobs y) x) ?_
    exact mergeFileResult_comm st₂ y x hxy
  | trans h₁ h₂ ih₁ ih₂ =>
    intro hnd st₁ st₂ hobs
    have hnd₂ := ((h₁.map Prod.fst).nodup_iff).mp hnd
    exact obsEq_trans (ih₁ hnd st₁ st₁ (obsEq_refl st₁))
      (ih₂ hnd₂ st₁ st₂ hobs)

/-- Claim C9: the contents of the aggregate contributor maps do not depend
on the order in which the per-file results are collected — for any two
permutations of the same per-file results (with, as in a run, one result
per file), the merged `contributor_stats` agree on every nested lookup and
the merged email and company maps agree on every author. -/
theorem merge_order_independent (l₁ l₂ : List (String × Result))
    (hperm : l₁.Perm l₂) (hnodup : (l₁.map Prod.fst).Nodup) :
    (∀ a f, statsGet (mergeAll emptyState l₁) a f =
      statsGet (mergeAll emptyState l₂) a f) ∧
    (∀ a, (mergeAll emptyState l₁).contributor_emails a =
      (mergeAll emptyState l₂).contributor_emails a) ∧
    (∀ a, (mergeAll emptyState l₁).contributor_companies a =
      (mergeAll emptyState l₂).contributor_companies a) :=
  mergeAll_perm_obsEq hperm hnodup emptyState emptyState
    (obsEq_refl emptyState)

/-- Witness for claim C9: two single-author per-file results merged in both
orders give the same lookup at the author and first file. -/
theorem merge_order_independent_witness :
    statsGet (mergeAll emptyState
      [("f", [(some "A", ⟨[], 1, none, some "a@x"⟩)]),
       ("g", [(some "A", ⟨[], 2, none, some "a@y"⟩)])]) (some "A") "f" =
    statsGet (mergeAll emptyState
      [("g", [(some "A", ⟨[], 2, none, some "a@y"⟩)]),
       ("f", [(some "A", ⟨[], 1, none, some "a@x"⟩)])]) (some "A") "f" :=
  (merge_order_independent
    [("f", [(some "A", ⟨[], 1, none, some "a@x"⟩)]),
     ("g", [(some "A", ⟨[], 2, none, some "a@y"⟩)])]
    [("g", [(some "A", ⟨[], 2, none, some "a@y"⟩)]),
     ("f", [(some "A", ⟨[], 1, none, some "a@x"⟩)])]
    (by decide) (by decide)).1 (some "A") "f"

end AnalyzeRepo
